import Mathlib

/-!
# Verification of the `dataCompression` record reducers

A shallow embedding of the three Python reducers in `src/dataCompression`
(`data-reducer.py`, `data-reduce-token.py`, `json-data-reducer.py`) together
with proofs about the claims of the specification.

Modelling conventions (stated once, used throughout):

* JSON trees are modelled by the inductive type `JValue`.  JSON numbers are
  modelled as integers (`Int`); the reducers' own numeric work (means,
  variances, z-scores) is carried out in exact rational arithmetic (the
  fraction type `Q` below), the idealisation of Python's float arithmetic.
* Python's `set` of small naturals is modelled as a strictly sorted,
  duplicate-free `List ℕ` (`SetList`); `sorted(list(s))` is then the list
  itself.  Python's stable `sorted(..., key=..., reverse=True)` is modelled
  by a stable insertion sort (`pySortDescBy`).
* `math.sqrt`/`numpy`'s square root has no exact rational counterpart; it is
  modelled by the computable `sqrtQ` below (exact whenever numerator and
  denominator are perfect squares).  No theorem below depends on the value a
  square root takes, only on comparisons that are invariant under any
  positive choice, or on inputs where `sqrtQ` is exact.
* Regular-expression passes of `estimate_tokens` are implemented as the
  scanners they denote on the well-formed strings `json.dumps` produces.
-/

namespace DataCompression

/-- JSON values (`json` module values).  Numbers are modelled as integers. -/
inductive JValue : Type where
  | null : JValue
  | bool : Bool → JValue
  | int  : Int → JValue
  | str  : String → JValue
  | arr  : List JValue → JValue
  | obj  : List (String × JValue) → JValue

mutual

/-- Boolean equality on JSON values (Python `==` / `!=` on parsed JSON). -/
def beqV : JValue → JValue → Bool
  | .null, .null => true
  | .bool a, .bool b => a == b
  | .int a, .int b => a == b
  | .str a, .str b => a == b
  | .arr a, .arr b => beqL a b
  | .obj a, .obj b => beqF a b
  | _, _ => false

/-- Boolean equality on JSON arrays. -/
def beqL : List JValue → List JValue → Bool
  | [], [] => true
  | x :: xs, y :: ys => beqV x y && beqL xs ys
  | _, _ => false

/-- Boolean equality on JSON object field lists. -/
def beqF : List (String × JValue) → List (String × JValue) → Bool
  | [], [] => true
  | (k, v) :: xs, (l, w) :: ys => k == l && beqV v w && beqF xs ys
  | _, _ => false

end

mutual

theorem beqV_iff : ∀ a b : JValue, beqV a b = true ↔ a = b
  | .null, .null => by simp [beqV]
  | .bool a, .bool b => by simp [beqV]
  | .int a, .int b => by simp [beqV]
  | .str a, .str b => by simp [beqV]
  | .arr a, .arr b => by
    rw [show beqV (.arr a) (.arr b) = beqL a b from rfl, beqL_iff a b]
    constructor
    · intro h; rw [h]
    · intro h; injection h
  | .obj a, .obj b => by
    rw [show beqV (.obj a) (.obj b) = beqF a b from rfl, beqF_iff a b]
    constructor
    · intro h; rw [h]
    · intro h; injection h
  | .null, .bool _ | .null, .int _ | .null, .str _ | .null, .arr _ | .null, .obj _
  | .bool _, .null | .bool _, .int _ | .bool _, .str _ | .bool _, .arr _ | .bool _, .obj _
  | .int _, .null | .int _, .bool _ | .int _, .str _ | .int _, .arr _ | .int _, .obj _
  | .str _, .null | .str _, .bool _ | .str _, .int _ | .str _, .arr _ | .str _, .obj _
  | .arr _, .null | .arr _, .bool _ | .arr _, .int _ | .arr _, .str _ | .arr _, .obj _
  | .obj _, .null | .obj _, .bool _ | .obj _, .int _ | .obj _, .str _ | .obj _, .arr _ => by
    simp [beqV]

theorem beqL_iff : ∀ a b : List JValue, beqL a b = true ↔ a = b
  | [], [] => by simp [beqL]
  | [], _ :: _ => by simp [beqL]
  | _ :: _, [] => by simp [beqL]
  | x :: xs, y :: ys => by
    rw [show beqL (x :: xs) (y :: ys) = (beqV x y && beqL xs ys) from rfl,
      Bool.and_eq_true_iff, beqV_iff x y, beqL_iff xs ys]
    constructor
    · rintro ⟨h1, h2⟩; rw [h1, h2]
    · intro h; injection h with h1 h2; exact ⟨h1, h2⟩

theorem beqF_iff : ∀ a b : List (String × JValue), beqF a b = true ↔ a = b
  | [], [] => by simp [beqF]
  | [], _ :: _ => by simp [beqF]
  | _ :: _, [] => by simp [beqF]
  | (k, v) :: xs, (l, w) :: ys => by
    rw [show beqF ((k, v) :: xs) ((l, w) :: ys) = (k == l && beqV v w && beqF xs ys) from rfl,
      Bool.and_eq_true_iff, Bool.and_eq_true_iff, beqV_iff v w, beqF_iff xs ys]
    constructor
    · rintro ⟨⟨h1, h2⟩, h3⟩
      rw [beq_iff_eq.mp h1, h2, h3]
    · intro h
      injection h with h1 h2
      injection h1 with h1a h1b
      exact ⟨⟨beq_iff_eq.mpr h1a, h1b⟩, h2⟩

end

instance : DecidableEq JValue := fun a b => decidable_of_iff _ (beqV_iff a b)

/-- A record of a compressible array: an ordered field map (a Python dict). -/
abbrev Record := List (String × JValue)

/-! ## `json.dumps(data, separators=(',', ':'))` -/

/-- Hexadecimal digit, lower case (as Python's `\uXXXX` escapes emit). -/
def hexDigit (n : ℕ) : Char :=
  if n < 10 then Char.ofNat ('0'.toNat + n) else Char.ofNat ('a'.toNat + (n - 10))

/-- The four-hex-digit block of a `\uXXXX` escape. -/
def hex4 (n : ℕ) : List Char :=
  [hexDigit (n / 4096 % 16), hexDigit (n / 256 % 16), hexDigit (n / 16 % 16), hexDigit (n % 16)]

/-- `json.dumps` escaping of one character (default `ensure_ascii=True`). -/
def escChar (c : Char) : List Char :=
  if c = '"' then ['\\', '"']
  else if c = '\\' then ['\\', '\\']
  else if c = '\n' then ['\\', 'n']
  else if c = '\t' then ['\\', 't']
  else if c = '\r' then ['\\', 'r']
  else if c.toNat = 8 then ['\\', 'b']
  else if c.toNat = 12 then ['\\', 'f']
  else if c.toNat < 32 then '\\' :: 'u' :: hex4 c.toNat
  else if c.toNat < 127 then [c]
  else if c.toNat < 65536 then '\\' :: 'u' :: hex4 c.toNat
  else
    '\\' :: 'u' :: hex4 (55296 + (c.toNat - 65536) / 1024) ++
      '\\' :: 'u' :: hex4 (56320 + (c.toNat - 65536) % 1024)

/-- Escape a whole string body. -/
def escapeStr (s : String) : List Char :=
  (s.toList.map escChar).flatten

mutual

/-- `json.dumps(v, separators=(',', ':'))` as a character list. -/
def dumpVal : JValue → List Char
  | .null => "null".data
  | .bool true => "true".data
  | .bool false => "false".data
  | .int n => (toString n).toList
  | .str s => '"' :: (escapeStr s ++ ['"'])
  | .arr xs => '[' :: (dumpItems xs ++ [']'])
  | .obj fs => '{' :: (dumpFields fs ++ ['}'])

/-- Comma-separated dump of array items. -/
def dumpItems : List JValue → List Char
  | [] => []
  | [x] => dumpVal x
  | x :: y :: xs => dumpVal x ++ ',' :: dumpItems (y :: xs)

/-- Comma-separated dump of object fields (`"key":value`). -/
def dumpFields : List (String × JValue) → List Char
  | [] => []
  | [(k, v)] => '"' :: (escapeStr k ++ '"' :: ':' :: dumpVal v)
  | (k, v) :: f :: fs =>
      ('"' :: (escapeStr k ++ '"' :: ':' :: dumpVal v)) ++ ',' :: dumpFields (f :: fs)

end

/-! ## `estimate_tokens` (data-reduce-token.py lines 7-172) -/

/-- The seven JSON structural characters counted one token each. -/
def isStructural (c : Char) : Bool :=
  c = '{' || c = '}' || c = '[' || c = ']' || c = ',' || c = ':' || c = '"'

/-- Structural-token count: `sum(json_str.count(ch) for ch in structural_chars)`. -/
def countStruct (s : List Char) : ℕ := (s.filter isStructural).length

theorem length_dropWhile_le {α : Type} (p : α → Bool) :
    ∀ l : List α, (l.dropWhile p).length ≤ l.length := by
  intro l
  induction l with
  | nil => simp
  | cons a l ih =>
    by_cases h : p a
    · rw [List.dropWhile_cons_of_pos h]
      exact Nat.le_succ_of_le ih
    · rw [List.dropWhile_cons_of_neg (by simpa using h)]

/-- Python's `\w` (ASCII range, as all data here is ASCII). -/
def isWordChar (c : Char) : Bool := c.isAlphanum || c = '_'

/-- `_estimate_word_tokens` (lines 101-140). -/
def estimate_word_tokens (w : List Char) : ℕ :=
  if w = [] then 0
  else
    let length := w.length
    if length ≤ 3 then 1
    else if length ≤ 5 then 1
    else if length ≤ 7 then
      if (w.drop 1).any (·.isUpper) then max 1 (length / 4) else 1
    else if length ≤ 10 then
      if w.all (·.isAlpha) && w.all fun c => !c.isUpper then
        (if length ≤ 8 then 1 else 2)
      else max 1 (length / 4)
    else
      if w.contains '_' then (w.filter (· = '_')).length + 1
      else if (w.drop 1).any (·.isUpper) then max 2 (length / 5)
      else max 2 (length / 4)

/-- Fuelled worker for `splitParts`; every pass consumes at least one
character, so character-count fuel never runs out early. -/
def splitPartsF : ℕ → List Char → List (List Char)
  | 0, _ => []
  | fuel + 1, s =>
    match s with
    | [] => []
    | c :: cs =>
      if c.isWhitespace then
        (c :: cs.takeWhile (·.isWhitespace)) :: splitPartsF fuel (cs.dropWhile (·.isWhitespace))
      else if isWordChar c then
        (c :: cs.takeWhile isWordChar) :: splitPartsF fuel (cs.dropWhile isWordChar)
      else [c] :: splitPartsF fuel cs

/-- `re.split(r'(\s+|[^\w\s])', text)` with empty parts removed: maximal
whitespace runs, maximal word-character runs, single other characters. -/
def splitParts (s : List Char) : List (List Char) := splitPartsF s.length s

/-- `_tokenize_text` (lines 59-99). -/
def tokenize_text (t : List Char) : ℕ :=
  if t = [] then 0
  else
    let lead := if t.head? = some ' ' then 1 else 0
    let trail := if t.getLast? = some ' ' then 1 else 0
    let stripped := ((t.dropWhile (·.isWhitespace)).reverse.dropWhile (·.isWhitespace)).reverse
    let body := (splitParts stripped).foldl
      (fun acc p =>
        match p with
        | [] => acc
        | c :: _ =>
          if c.isWhitespace then acc + 1
          else if isWordChar c then acc + estimate_word_tokens p
          else acc + p.length)
      0
    max 1 (lead + trail + body)

/-- `str.split(sep)` on a single character, keeping empty segments. -/
def splitOnChar (c : Char) : List Char → List (List Char)
  | [] => [[]]
  | x :: xs =>
    match splitOnChar c xs with
    | [] => [[]]
    | h :: t => if x = c then [] :: h :: t else (x :: h) :: t

/-- `_tokenize_number_openai_style` (lines 142-172). -/
def tokenize_number (s : List Char) : ℕ :=
  if s = [] then 0
  else
    let s := ((s.dropWhile (·.isWhitespace)).reverse.dropWhile (·.isWhitespace)).reverse
    if 1 ≤ s.length ∧ s.length ≤ 3 ∧ s.all (·.isDigit) then 1
    else if s.contains '.' then
      (splitOnChar '.' s).foldl
        (fun acc part => acc + (if part.length ≤ 3 then 1 else max 1 (part.length / 3))) 0 + 1
    else
      if s.length ≤ 4 then 1 else max 1 (s.length / 3)

mutual

/-- The pass over string literals of `estimate_tokens` steps 2-4, fused with
the computation of `no_strings` used by step 5 (outside-literal state).
Returns the total `_tokenize_text` contribution of the literals (`group(1)`
of the repeated group is the *last* content unit, as in Python) and the
string with matched literals removed. -/
def scanOut : List Char → ℕ × List Char
  | [] => (0, [])
  | c :: cs =>
    if c = '"' then scanIn cs []
    else
      let r := scanOut cs
      (r.1, c :: r.2)

/-- Inside a string literal; `last` is the last matched content unit. -/
def scanIn : List Char → List Char → ℕ × List Char
  | [], _ => (0, [])
  | c :: cs, last =>
    if c = '"' then
      let r := scanOut cs
      (tokenize_text last + r.1, r.2)
    else if c = '\\' then
      match cs with
      | [] => (0, [])
      | d :: ds => scanIn ds ['\\', d]
    else scanIn cs [c]

end

/-- Head-is-a-digit test for the number scanner. -/
def digitHead : List Char → Bool
  | [] => false
  | c :: _ => c.isDigit

/-- Optional `\.?\d*` part of the number regex. -/
def afterFrac : List Char → List Char × List Char
  | '.' :: cs => ('.' :: cs.takeWhile (·.isDigit), cs.dropWhile (·.isDigit))
  | s => ([], s)

/-- Optional `(?:[eE][+-]?\\d+)?` part of the number regex (the exponent is
consumed only when at least one digit follows, as regex backtracking does). -/
def afterExp (s : List Char) : List Char × List Char :=
  match s with
  | [] => ([], [])
  | c :: rest =>
    if c = 'e' || c = 'E' then
      match rest with
      | [] => ([], s)
      | d :: cs =>
        if d = '+' || d = '-' then
          if digitHead cs then
            (c :: d :: cs.takeWhile (·.isDigit), cs.dropWhile (·.isDigit))
          else ([], s)
        else if digitHead rest then
          (c :: rest.takeWhile (·.isDigit), rest.dropWhile (·.isDigit))
        else ([], s)
    else ([], s)

theorem afterFrac_length_le (s : List Char) : (afterFrac s).2.length ≤ s.length := by
  unfold afterFrac
  split
  · simpa using Nat.le_succ_of_le (length_dropWhile_le _ _)
  · exact le_refl _

theorem afterExp_length_le (s : List Char) : (afterExp s).2.length ≤ s.length := by
  match s with
  | [] => exact le_refl _
  | [c] =>
    simp only [afterExp]
    split_ifs <;> exact le_refl _
  | c :: d :: cs =>
    simp only [afterExp]
    split_ifs with h1 h2 h3 h4
    · have := length_dropWhile_le (fun x => x.isDigit) cs
      simp only [List.length_cons]
      omega
    · exact le_refl _
    · have := length_dropWhile_le (fun x => x.isDigit) (d :: cs)
      simp only [List.length_cons] at this ⊢
      omega
    · exact le_refl _
    · exact le_refl _

/-- One maximal match of `-?\d+\.?\d*(?:[eE][+-]?\d+)?` starting at `c :: cs`
(only called when it matches): returns the matched characters and the rest. -/
def numChunk (c : Char) (cs : List Char) : List Char × List Char :=
  let body := if c = '-' then cs else c :: cs
  let intPart := body.takeWhile (·.isDigit)
  let r1 := body.dropWhile (·.isDigit)
  let fr := afterFrac r1
  let ex := afterExp fr.2
  ((if c = '-' then ['-'] else []) ++ intPart ++ fr.1 ++ ex.1, ex.2)

theorem numChunk_length_le (c : Char) (cs : List Char)
    (h : c.isDigit || (c = '-' && digitHead cs)) :
    (numChunk c cs).2.length ≤ cs.length := by
  unfold numChunk
  by_cases hc : c = '-'
  · simp only [hc, if_pos rfl]
    calc (afterExp (afterFrac (cs.dropWhile (·.isDigit))).2).2.length
        ≤ (afterFrac (cs.dropWhile (·.isDigit))).2.length := afterExp_length_le _
      _ ≤ (cs.dropWhile (·.isDigit)).length := afterFrac_length_le _
      _ ≤ cs.length := length_dropWhile_le _ _
  · have hd : c.isDigit := by
      rcases Bool.or_eq_true_iff.mp h with h1 | h1
      · exact h1
      · exact absurd (by simpa using (Bool.and_eq_true_iff.mp h1).1) hc
    simp only [if_neg hc]
    rw [List.dropWhile_cons_of_pos hd]
    calc (afterExp (afterFrac (cs.dropWhile (·.isDigit))).2).2.length
        ≤ (afterFrac (cs.dropWhile (·.isDigit))).2.length := afterExp_length_le _
      _ ≤ (cs.dropWhile (·.isDigit)).length := afterFrac_length_le _
      _ ≤ cs.length := length_dropWhile_le _ _

/-- Fuelled worker for `numScan`; a match consumes at least the head
character (`numChunk_length_le`), so character-count fuel never runs out
early. -/
def numScanF : ℕ → List Char → ℕ
  | 0, _ => 0
  | fuel + 1, s =>
    match s with
    | [] => 0
    | c :: cs =>
      if c.isDigit || (c = '-' && digitHead cs) then
        tokenize_number (numChunk c cs).1 + numScanF fuel (numChunk c cs).2
      else numScanF fuel cs

/-- `re.findall(r'-?\d+\.?\d*(?:[eE][+-]?\d+)?', no_strings)` followed by
`_tokenize_number_openai_style` on every match, summed. -/
def numScan (s : List Char) : ℕ := numScanF s.length s

/-- `estimate_tokens` (lines 7-57). -/
def estimate_tokens (v : JValue) : ℕ :=
  match v with
  | .null => 0
  | v =>
    let s := dumpVal v
    let sc := scanOut s
    countStruct s + sc.1 + numScan sc.2

/-! ## Python `set` of naturals, modelled as a strictly sorted list -/

/-- Insert into a sorted duplicate-free list (Python `set.add`). -/
def setInsert (x : ℕ) : List ℕ → List ℕ
  | [] => [x]
  | y :: ys => if x < y then x :: y :: ys else if x = y then y :: ys else y :: setInsert x ys

/-- Add all of `xs` to the set `s` (Python `set.update`). -/
def setUnion (s : List ℕ) (xs : List ℕ) : List ℕ := xs.foldl (fun a x => setInsert x a) s

/-! ## Exact rational arithmetic the kernel can evaluate

The reducers' statistics are exact rational computations in the model;
they are carried here as unnormalised fractions with positive
denominators (each operation below is the exact field operation, and
each comparison is the rational order via cross-multiplication, valid
for positive denominators, which every computation maintains). -/

/-- An exact, unnormalised fraction. -/
structure Q where
  num : Int
  den : Int

instance (n : ℕ) : OfNat Q n := ⟨⟨(n : Int), 1⟩⟩

/-- Embed an integer. -/
def Q.ofInt (n : Int) : Q := ⟨n, 1⟩

instance : Add Q := ⟨fun a b => ⟨a.num * b.den + b.num * a.den, a.den * b.den⟩⟩

instance : Sub Q := ⟨fun a b => ⟨a.num * b.den - b.num * a.den, a.den * b.den⟩⟩

instance : Mul Q := ⟨fun a b => ⟨a.num * b.num, a.den * b.den⟩⟩

instance : Div Q :=
  ⟨fun a b =>
    if b.num < 0 then ⟨-(a.num * b.den), a.den * -b.num⟩
    else ⟨a.num * b.den, a.den * b.num⟩⟩

/-- `abs` on exact fractions (positive denominators). -/
def Q.abs (a : Q) : Q := ⟨|a.num|, a.den⟩

instance : LT Q := ⟨fun a b => a.num * b.den < b.num * a.den⟩

instance : LE Q := ⟨fun a b => a.num * b.den ≤ b.num * a.den⟩

instance : DecidableRel (fun a b : Q => a < b) := fun _ _ => Int.decLt _ _

instance : DecidableRel (fun a b : Q => a ≤ b) := fun _ _ => Int.decLe _ _

/-- Sum of a list of fractions. -/
def qsum (l : List Q) : Q := l.foldl (· + ·) 0

/-- Python `int(q)` truncates toward zero; the reducers only apply it to
non-negative values, where it is the floor. -/
def Q.floorToNat (q : Q) : ℕ := (q.num.fdiv q.den).toNat

/-- Fuel-driven integer Newton iteration (the fuel only bounds the loop;
the iteration reaches the integer square root long before it runs out). -/
def sqrtIter (n : ℕ) : ℕ → ℕ → ℕ
  | 0, guess => guess
  | fuel + 1, guess =>
    let next := (guess + n / guess) / 2
    if next < guess then sqrtIter n fuel next else guess

/-- Integer square root, kernel-evaluable. -/
def natSqrtM (n : ℕ) : ℕ := if n ≤ 1 then n else sqrtIter n n n

/-! ## Statistics in exact rational arithmetic -/

/-- Numeric JSON value as a rational (numeric columns contain only `.int`). -/
def toQ : JValue → Q
  | .int n => Q.ofInt n
  | _ => 0

/-- `np.mean` (also `pandas.Series.mean`). -/
def meanQ (l : List Q) : Q := qsum l / Q.ofInt l.length

/-- `np.var` / the square of `np.std`: population variance. -/
def popVarQ (l : List Q) : Q :=
  qsum (l.map (fun x => (x - meanQ l) * (x - meanQ l))) / Q.ofInt l.length

/-- `pandas.Series.var` (`ddof=1`); the undefined single-sample case is 0
(pandas gives `NaN`, which fails every `> 0` guard exactly as 0 does). -/
def sampleVarQ (l : List Q) : Q :=
  if l.length ≤ 1 then 0
  else qsum (l.map (fun x => (x - meanQ l) * (x - meanQ l))) / (Q.ofInt l.length - 1)

/-- Computable stand-in for the real square root; see the header
note — no theorem depends on its values beyond sign-compatible ones. -/
def sqrtQ (q : Q) : Q := ⟨((natSqrtM q.num.toNat : ℕ) : Int), ((natSqrtM q.den.toNat : ℕ) : Int)⟩

/-- `np.argmin` (first index attaining the minimum). -/
def argminQ (l : List Q) : ℕ :=
  (List.range l.length).foldl (fun b i => if l.getD i 0 < l.getD b 0 then i else b) 0

/-- `np.argmax` (first index attaining the maximum). -/
def argmaxQ (l : List Q) : ℕ :=
  (List.range l.length).foldl (fun b i => if l.getD b 0 < l.getD i 0 then i else b) 0

/-! ## Columns (the `pd.DataFrame` bookkeeping) -/

/-- `df.columns`: field names in first-appearance order. -/
def colsOf (data : List Record) : List String :=
  (data.flatMap (fun r => r.map Prod.fst)).dedup

/-- `df.iloc[i][c]` through the row dictionaries. -/
def getVal (r : Record) (c : String) : JValue := (r.lookup c).getD .null

/-- `df[c].values` as a list. -/
def colVals (data : List Record) (c : String) : List JValue := data.map (getVal · c)

/-- Whether a JSON value is numeric in the model. -/
def isIntVal : JValue → Bool
  | .int _ => true
  | _ => false

/-- `df[c].dtype in ['int64', 'float64']`: every value of the column is
numeric (uniform records make this pandas-exact). -/
def isNumericCol (data : List Record) (c : String) : Bool :=
  (colVals data c).all isIntVal

/-! ## Salience detection (shared text of the three `_compress_single_array`) -/

/-- Anomaly indices of one numeric column:
`np.where(|values - mean| / (np.std(values) + 1e-8) > 2.5)[0][:5]`. -/
def anomalyIdxs (data : List Record) (c : String) : List ℕ :=
  let vals := (colVals data c).map toQ
  let m := meanQ vals
  let s := sqrtQ (popVarQ vals)
  ((List.range data.length).filter
    (fun i => (5 : Q) / 2 < (vals.getD i 0 - m).abs / (s + 1 / 100000000))).take 5

/-- `[np.argmin(values), np.argmax(values)]` of one numeric column. -/
def extremeIdxs (data : List Record) (c : String) : List ℕ :=
  let vals := (colVals data c).map toQ
  [argminQ vals, argmaxQ vals]

/-- Transition indices of one categorical/significant column: both members
of every adjacent pair with differing values. -/
def transitionIdxs (data : List Record) (c : String) : List ℕ :=
  ((List.range data.length).drop 1).flatMap
    (fun i => if getVal (data.getD i []) c ≠ getVal (data.getD (i - 1) []) c
              then [i - 1, i] else [])

/-- The budget-independent preserved set: `{0, n-1}`, plus anomalies,
extremes and transitions (lines 226-246 / 557-577 / 81-104). -/
def salientIdxs (data : List Record) (numerical categorical : List String)
    (preserveAnomalies preserveExtremes : Bool) : List ℕ :=
  let n := data.length
  let s0 := setUnion [] [0, n - 1]
  let s1 := if preserveAnomalies && !numerical.isEmpty then
      numerical.foldl (fun s c => setUnion s (anomalyIdxs data c)) s0
    else s0
  let s2 := if preserveExtremes && !numerical.isEmpty then
      numerical.foldl (fun s c => setUnion s (extremeIdxs data c)) s1
    else s1
  categorical.foldl (fun s c => setUnion s (transitionIdxs data c)) s2

/-! ## Significance score of a non-salient index (lines 253-273 etc.) -/

/-- The local-variability term: `np.var([prev, curr, next])` summed over the
numeric columns, only for interior indices. -/
def localVarTerm (data : List Record) (cols : List String) (i : ℕ) : Q :=
  if 0 < i ∧ i < data.length - 1 then
    qsum (cols.map (fun c =>
      popVarQ [toQ (getVal (data.getD (i - 1) []) c),
               toQ (getVal (data.getD i []) c),
               toQ (getVal (data.getD (i + 1) []) c)]))
  else 0

/-- The distance-from-mean term: `abs((v - mean) / std)` summed over numeric
columns whose (sample) standard deviation is positive. -/
def zScoreTerm (data : List Record) (cols : List String) (i : ℕ) : Q :=
  qsum (cols.map (fun c =>
    let vals := (colVals data c).map toQ
    let m := meanQ vals
    let s := sqrtQ (sampleVarQ vals)
    if (0 : Q) < s then (toQ (getVal (data.getD i []) c) - m).abs / s else 0))

/-- The significance score of index `i`. -/
def sigScore (data : List Record) (cols : List String) (i : ℕ) : Q :=
  localVarTerm data cols i + zScoreTerm data cols i

/-! ## Python's stable `sorted(..., key=k, reverse=True)` -/

/-- Insert `x` (arriving after everything in the sorted accumulator) before
the first strictly smaller key, keeping equal keys in arrival order. -/
def insDesc {α : Type} (k : α → Q) : List α → α → List α
  | [], x => [x]
  | y :: ys, x => if k y < k x then x :: y :: ys else y :: insDesc k ys x

/-- Stable descending sort by key (`sorted(l, key=k, reverse=True)`). -/
def pySortDescBy {α : Type} (k : α → Q) (l : List α) : List α := l.foldl (insDesc k) []

/-! ## The fill and trim blocks shared by the item-count reducers -/

/-- Step 4 of the core algorithm: add the most significant non-salient
indices until the target size is reached (lines 249-280 / 109-140). -/
def growIndices (data : List Record) (numerical : List String) (p0 : List ℕ)
    (target n : ℕ) : List ℕ :=
  let remaining := (List.range n).filter (fun i => !p0.contains i)
  let sortedRemaining := pySortDescBy (fun i => sigScore data numerical i) remaining
  setUnion p0 (sortedRemaining.take (target - p0.length))

/-- The trim block of `data-reducer.py` (lines 283-288): keep `0`, `n-1`
and all but the last `to_remove` removable preserved indices. -/
def trimIndices (p0 : List ℕ) (target n : ℕ) : List ℕ :=
  let canRemove := p0.filter (fun i => !(i = 0 || i = n - 1))
  let keep := canRemove.take (canRemove.length - (p0.length - target))
  setUnion (setUnion [] [0, n - 1]) keep

/-! ## `data-reducer.py` : `_compress_single_array` (lines 188-308) -/

/-- Configuration of `data-reducer.py` (`method` is metadata-only and
omitted). -/
structure ConfigR where
  target_size : Option ℕ
  reduction_ratio : Q
  preserve_anomalies : Bool
  preserve_extremes : Bool
  min_points : ℕ
  sequence_key : String
  min_array_size : ℕ

namespace DataReducer

/-- `numerical_cols` of `data-reducer.py` (lines 209-215). -/
def numericalCols (data : List Record) (cfg : ConfigR) : List String :=
  (colsOf data).filter (fun c => c ≠ cfg.sequence_key && isNumericCol data c)

/-- `categorical_cols` of `data-reducer.py`. -/
def categoricalCols (data : List Record) (cfg : ConfigR) : List String :=
  (colsOf data).filter (fun c => c ≠ cfg.sequence_key && !isNumericCol data c)

/-- Result of `_compress_single_array`; `preserved = none` on the
too-small early return, whose metadata has no `preserved_indices`. -/
structure ResultR where
  data : List Record
  preserved : Option (List ℕ)
  original_size : ℕ
  compressed_size : ℕ

/-- `_compress_single_array` of `data-reducer.py`. -/
def compress_single_array (data : List Record) (cfg : ConfigR) : ResultR :=
  if data.length ≤ cfg.min_points then
    { data := data, preserved := none,
      original_size := data.length, compressed_size := data.length }
  else
    let n := data.length
    let numerical := numericalCols data cfg
    let categorical := categoricalCols data cfg
    let target_size :=
      match cfg.target_size with
      | some t => max cfg.min_points (min t n)
      | none => max cfg.min_points (((Q.ofInt n) * (1 - cfg.reduction_ratio)).floorToNat)
    let preserved0 := salientIdxs data numerical categorical
      cfg.preserve_anomalies cfg.preserve_extremes
    let preserved :=
      if preserved0.length < target_size then
        growIndices data numerical preserved0 target_size n
      else if target_size < preserved0.length then
        trimIndices preserved0 target_size n
      else preserved0
    { data := preserved.map (fun i => data.getD i []),
      preserved := some preserved,
      original_size := n, compressed_size := preserved.length }

end DataReducer

/-! ## `json-data-reducer.py` : `intelligent_json_reducer` (lines 3-161) -/

/-- Configuration of `json-data-reducer.py`. -/
structure ConfigJ where
  reduction_ratio : Q
  preserve_anomalies : Bool
  preserve_extremes : Bool
  min_points : ℕ
  sequence_key : String

namespace JsonReducer

/-- The hard-coded categorical field names of `json-data-reducer.py`. -/
def commonCategorical : List String := ["Charge/Discharge", "Status", "Mode"]

/-- `numerical_cols` of `json-data-reducer.py` (lines 62-70). -/
def numericalCols (data : List Record) (cfg : ConfigJ) : List String :=
  (colsOf data).filter (fun c =>
    c ≠ cfg.sequence_key && !commonCategorical.contains c && isNumericCol data c)

/-- `categorical_cols` of `json-data-reducer.py` (includes the sequence key). -/
def categoricalCols (data : List Record) (cfg : ConfigJ) : List String :=
  (colsOf data).filter (fun c =>
    c = cfg.sequence_key || commonCategorical.contains c || !isNumericCol data c)

/-- `intelligent_json_reducer` of `json-data-reducer.py` (single array; no
trim pass exists in this variant). -/
def intelligent_json_reducer (data : List Record) (cfg : ConfigJ) :
    DataReducer.ResultR :=
  if data.length ≤ cfg.min_points then
    { data := data, preserved := none,
      original_size := data.length, compressed_size := data.length }
  else
    let n := data.length
    let numerical := numericalCols data cfg
    let categorical := categoricalCols data cfg
    let target_size := max cfg.min_points (((Q.ofInt n) * (1 - cfg.reduction_ratio)).floorToNat)
    let preserved0 := salientIdxs data numerical categorical
      cfg.preserve_anomalies cfg.preserve_extremes
    let preserved :=
      if preserved0.length < target_size then
        growIndices data numerical preserved0 target_size n
      else preserved0
    { data := preserved.map (fun i => data.getD i []),
      preserved := some preserved,
      original_size := n, compressed_size := preserved.length }

end JsonReducer

/-! ## `data-reduce-token.py` : cost of record arrays and selections -/

/-- A record as the JSON value it serialises to. -/
def recJ (r : Record) : JValue := .obj r

/-- The sampled index set of `estimate_tokens_for_array` for `n > 20`
(head, middle and tail segments, deduplicated). -/
def sampleIdxs (n : ℕ) : List ℕ :=
  if n ≤ 20 then List.range n
  else
    let ms := n / 2 - 3
    let me' := min n (n / 2 + 3)
    (setUnion (setUnion (setUnion [] (List.range (min 7 n)))
      (List.range' ms (me' - ms))) (List.range' (n - 7) 7)).take (min 20 n)

/-- `estimate_tokens_for_array` (lines 174-219): exact for short arrays,
sampled average times count plus enclosing overhead otherwise. -/
def estimate_tokens_for_array (l : List JValue) : ℕ :=
  if l.length = 0 then 0
  else if l.length ≤ 10 then estimate_tokens (.arr l)
  else
    let idxs := sampleIdxs l.length
    let sample := idxs.map (fun i => l.getD i .null)
    let sampleTokens := estimate_tokens (.arr sample)
    let avg : Q := Q.ofInt sampleTokens / Q.ofInt sample.length
    (avg * Q.ofInt l.length + (2 + (Q.ofInt l.length - 1))).floorToNat

/-- Token cost of a record array. -/
def tokensOfRecords (rs : List Record) : ℕ := estimate_tokens_for_array (rs.map recJ)

/-- `estimate_tokens_for_array([data[i] for i in sorted(indices)])` for a
selection given as a sorted index set. -/
def selTokens (data : List Record) (s : List ℕ) : ℕ :=
  tokensOfRecords (s.map (fun i => data.getD i []))

/-- Configuration of `data-reduce-token.py`; a `skip_patterns` regex is
modelled by the `re.search` Boolean matcher it denotes. -/
structure ConfigT where
  target_tokens : Option ℕ
  reduction_ratio : Q
  preserve_anomalies : Bool
  preserve_extremes : Bool
  sequence_key : String
  significant_cols : List String
  min_array_tokens : ℕ
  skip_fields : List String
  skip_patterns : List (String → Bool)

namespace TokenReducer

/-- `numerical_cols` of `data-reduce-token.py` (lines 536-542). -/
def numericalCols (data : List Record) (cfg : ConfigT) : List String :=
  (colsOf data).filter (fun c =>
    c ≠ cfg.sequence_key && !cfg.significant_cols.contains c && isNumericCol data c)

/-- `significant_cols` (the configured transition columns present). -/
def significantCols (data : List Record) (cfg : ConfigT) : List String :=
  (colsOf data).filter (fun c =>
    c ≠ cfg.sequence_key && cfg.significant_cols.contains c)

/-- The growth loop (lines 620-629): greedily add candidates while the
estimated cost of the grown selection stays within the target. -/
def growthLoop (data : List Record) (target : ℕ) :
    List ℕ → List ℕ → ℕ → List ℕ × ℕ
  | [], s, cur => (s, cur)
  | idx :: rest, s, cur =>
    let t := setInsert idx s
    let tt := selTokens data t
    if tt ≤ target then growthLoop data target rest t tt
    else (s, cur)

/-- The successive selections the growth loop passes through (the head is
the entry selection); auxiliary, for stating the step-wise cost bound. -/
def growthStates (data : List Record) (target : ℕ) :
    List ℕ → List ℕ → ℕ → List (List ℕ)
  | [], s, _ => [s]
  | idx :: rest, s, cur =>
    let t := setInsert idx s
    let tt := selTokens data t
    if tt ≤ target then s :: growthStates data target rest t tt
    else [s]

/-- The inner candidate scan of the shrink loop (lines 642-651): the first
removal of the trailing window attaining the least resulting cost. -/
def bestRemoval (data : List Record) (s : List ℕ) :
    List ℕ → Option (ℕ × ℕ) → Option (ℕ × ℕ)
  | [], acc => acc
  | idx :: rest, acc =>
    let tt := selTokens data (s.filter (fun j => j ≠ idx))
    let acc' := match acc with
      | none => some (idx, tt)
      | some (bi, bt) => if tt < bt then some (idx, tt) else some (bi, bt)
    bestRemoval data s rest acc'

theorem bestRemoval_mem (data : List Record) (s : List ℕ) :
    ∀ (w : List ℕ) (acc : Option (ℕ × ℕ)) (p : ℕ × ℕ),
      bestRemoval data s w acc = some p →
      p.1 ∈ w ∨ (∃ q : ℕ × ℕ, acc = some q ∧ p.1 = q.1) := by
  intro w
  induction w with
  | nil =>
    intro acc p h
    exact Or.inr ⟨p, h, rfl⟩
  | cons idx rest ih =>
    intro acc p h
    rcases ih _ p h with h1 | ⟨q, hq, hp⟩
    · exact Or.inl (List.mem_cons_of_mem _ h1)
    · match acc with
      | none =>
        simp only [Option.some.injEq] at hq
        rw [hp, ← hq]
        exact Or.inl (List.mem_cons_self _ _)
      | some (bi, bt) =>
        by_cases hlt : selTokens data (s.filter (fun j => j ≠ idx)) < bt
        · simp only [if_pos hlt, Option.some.injEq] at hq
          rw [hp, ← hq]
          exact Or.inl (List.mem_cons_self _ _)
        · simp only [if_neg hlt, Option.some.injEq] at hq
          rw [hp, ← hq]
          exact Or.inr ⟨(bi, bt), rfl, rfl⟩

/-- The shrink loop (lines 639-658): while over target and candidates
remain, remove the windowed candidate whose removal costs least.  The
first argument is iteration fuel; every pass removes one candidate, so
the candidate count the caller passes is never exhausted early and the
loop is exactly the source's `while` loop. -/
def shrinkLoop (data : List Record) (target : ℕ) :
    ℕ → List ℕ → List ℕ → ℕ → List ℕ × List ℕ × ℕ
  | 0, s, canRemove, cur => (s, canRemove, cur)
  | fuel + 1, s, canRemove, cur =>
    if cur ≤ target then (s, canRemove, cur)
    else
      match canRemove with
      | [] => (s, [], cur)
      | c :: cs =>
        match bestRemoval data s ((c :: cs).drop ((c :: cs).length - 5)) none with
        | none => (s, c :: cs, cur)
        | some (bi, bt) =>
          shrinkLoop data target fuel (s.filter (fun j => j ≠ bi))
            ((c :: cs).erase bi) bt

/-- Result of the token-mode `_compress_single_array`. -/
structure ResultT where
  data : List Record
  preserved : Option (List ℕ)
  original_size : ℕ
  compressed_size : ℕ
  original_tokens : ℕ
  compressed_tokens : ℕ

/-- `_compress_single_array` of `data-reduce-token.py` (lines 494-685).
The vestigial `target_size` computed at lines 548-554 is never read after
being assigned and is omitted. -/
def compress_single_array (data : List Record) (cfg : ConfigT) : ResultT :=
  if data.length = 0 then
    { data := data, preserved := none, original_size := 0, compressed_size := 0,
      original_tokens := 0, compressed_tokens := 0 }
  else
    let original_tokens := tokensOfRecords data
    if original_tokens ≤ cfg.min_array_tokens then
      { data := data, preserved := none,
        original_size := data.length, compressed_size := data.length,
        original_tokens := original_tokens, compressed_tokens := original_tokens }
    else
      let n := data.length
      let numerical := numericalCols data cfg
      let significant := significantCols data cfg
      let preserved0 := salientIdxs data numerical significant
        cfg.preserve_anomalies cfg.preserve_extremes
      let cur0 := selTokens data preserved0
      let preserved :=
        match cfg.target_tokens with
        | none => preserved0
        | some target =>
          if cur0 < target ∧ preserved0.length < n then
            let remaining := (List.range n).filter (fun i => !preserved0.contains i)
            let sortedRemaining :=
              pySortDescBy (fun i => sigScore data numerical i) remaining
            (growthLoop data target sortedRemaining preserved0 cur0).1
          else if target < cur0 ∧ 3 < preserved0.length then
            let canRemove := preserved0.filter (fun i => !(i = 0 || i = n - 1))
            (shrinkLoop data target canRemove.length preserved0 canRemove cur0).1
          else preserved0
      let compressedData := preserved.map (fun i => data.getD i [])
      { data := compressedData, preserved := some preserved,
        original_size := n, compressed_size := compressedData.length,
        original_tokens := original_tokens,
        compressed_tokens := tokensOfRecords compressedData }

end TokenReducer

/-! ## Nested trees: shared path helpers -/

/-- `f"{path}.{key}" if path != "root" else key`. -/
def childPath (p k : String) : String := if p = "root" then k else p ++ "." ++ k

/-- Whether a JSON value is an object (a record). -/
def isObj : JValue → Bool
  | .obj _ => true
  | _ => false

/-- The record list of an all-object array. -/
def asRecords (items : List JValue) : List Record :=
  items.map (fun v => match v with | .obj fs => fs | _ => [])

namespace TokenReducer

/-! ### `data-reduce-token.py` : nested compression (lines 279-492) -/

/-- `path.split('.')` via the char-level splitter. -/
def splitDots (s : String) : List String :=
  (splitOnChar '.' s.data).map (fun cs => ⟨cs⟩)

/-- `_should_skip_field` (lines 279-306). -/
def should_skip_field (path : String) (cfg : ConfigT) : Bool :=
  cfg.skip_fields.contains path ||
  cfg.skip_fields.any (fun sf => (splitDots path).contains sf) ||
  cfg.skip_patterns.any (fun m => m path)

/-- One entry of `array_info` (lines 332-358). -/
structure ArrayInfo where
  path : String
  size : ℕ
  tokens : ℕ
  data : List JValue
  skip : Bool
  reason : String
deriving DecidableEq

mutual

/-- `_collect_arrays` (lines 318-359): depth-first through mapping values
only, recording every nonempty all-object array with its classification. -/
def collect_arrays (cfg : ConfigT) : JValue → String → List ArrayInfo
  | .obj fs, path => collect_fields cfg fs path
  | .arr items, path =>
    if 0 < items.length ∧ items.all isObj then
      let tokens := estimate_tokens_for_array items
      if should_skip_field path cfg then
        [{ path := path, size := items.length, tokens := tokens, data := items,
           skip := true, reason := "Matched skip configuration" }]
      else if cfg.min_array_tokens ≤ tokens then
        [{ path := path, size := items.length, tokens := tokens, data := items,
           skip := false, reason := "" }]
      else
        [{ path := path, size := items.length, tokens := tokens, data := items,
           skip := true, reason := "Below minimum token threshold" }]
    else []
  | _, _ => []

/-- Dictionary traversal of `_collect_arrays`. -/
def collect_fields (cfg : ConfigT) : List (String × JValue) → String → List ArrayInfo
  | [], _ => []
  | (k, v) :: fs, path =>
    collect_arrays cfg v (childPath path k) ++ collect_fields cfg fs path

end

/-- `total_compressible_tokens`, accumulated in traversal order. -/
def total_compressible_tokens (infos : List ArrayInfo) : ℕ :=
  infos.foldl (fun a i => if i.skip then a else a + i.tokens) 0

/-- `total_skipped_tokens`, accumulated in traversal order. -/
def total_skipped_tokens (infos : List ArrayInfo) : ℕ :=
  infos.foldl (fun a i => if i.skip then a + i.tokens else a) 0

/-- Per-array allocation of a total token budget over the compressible
arrays: `int(total_target * (info["tokens"] / total_compressible_tokens))`
(lines 390-398). -/
def allocate (infos : List ArrayInfo) (totalTarget : ℕ) : List (ArrayInfo × ℕ) :=
  let c := total_compressible_tokens infos
  (infos.filter (fun i => !i.skip)).map (fun i => (i, totalTarget * i.tokens / c))

mutual

/-- `_compress_recursively` (lines 420-470). -/
def compress_recursively (cfg : ConfigT) (infos : List ArrayInfo)
    (totalCompressible : ℕ) : JValue → String → JValue
  | .obj fs, path => .obj (compress_fields cfg infos totalCompressible fs path)
  | .arr items, path =>
    match infos.find? (fun i => i.path = path) with
    | some info =>
      if info.skip then .arr items
      else
        let tgt := match cfg.target_tokens with
          | some totalTarget => some (totalTarget * info.tokens / totalCompressible)
          | none => none
        let r := compress_single_array (asRecords items) { cfg with target_tokens := tgt }
        .arr (r.data.map recJ)
    | none => .arr items
  | v, _ => v

/-- Dictionary traversal of `_compress_recursively`, preserving key order. -/
def compress_fields (cfg : ConfigT) (infos : List ArrayInfo)
    (totalCompressible : ℕ) : List (String × JValue) → String → List (String × JValue)
  | [], _ => []
  | (k, v) :: fs, path =>
    (k, compress_recursively cfg infos totalCompressible v (childPath path k)) ::
      compress_fields cfg infos totalCompressible fs path

end

/-- `_compress_nested_with_total_target` (lines 308-492), data part: the
rebuilt tree (the whole input when no array is compressible). -/
def compress_nested_with_total_target (data : JValue) (cfg : ConfigT) : JValue :=
  let infos := collect_arrays cfg data "root"
  if (infos.filter (fun i => !i.skip)).isEmpty then data
  else compress_recursively cfg infos (total_compressible_tokens infos) data "root"

end TokenReducer

namespace DataReducer

/-! ### `data-reducer.py` : nested compression (lines 60-186) -/

/-- One entry of `array_info` (lines 77-81). -/
structure ArrayInfo where
  path : String
  size : ℕ
  data : List JValue
deriving DecidableEq

mutual

/-- `_collect_arrays` (lines 69-83): depth-first through mapping values
only; records arrays of at least `min_array_size` objects. -/
def collect_arrays (cfg : ConfigR) : JValue → String → List ArrayInfo
  | .obj fs, path => collect_fields cfg fs path
  | .arr items, path =>
    if cfg.min_array_size ≤ items.length ∧ items.all isObj then
      [{ path := path, size := items.length, data := items }]
    else []
  | _, _ => []

/-- Dictionary traversal of `_collect_arrays`. -/
def collect_fields (cfg : ConfigR) : List (String × JValue) → String → List ArrayInfo
  | [], _ => []
  | (k, v) :: fs, path =>
    collect_arrays cfg v (childPath path k) ++ collect_fields cfg fs path

end

/-- `total_items`, accumulated in traversal order. -/
def total_items (infos : List ArrayInfo) : ℕ :=
  infos.foldl (fun a i => a + i.size) 0

/-- Per-array item-count allocation of a total `target_size`:
`max(min_points, int(total_target * (info["size"] / total_items)))`
(lines 99-111). -/
def allocate (infos : List ArrayInfo) (minPoints totalTarget : ℕ) : List (ArrayInfo × ℕ) :=
  let c := total_items infos
  infos.map (fun i => (i, max minPoints (totalTarget * i.size / c)))

mutual

/-- `_compress_recursively` (lines 128-171). -/
def compress_recursively (cfg : ConfigR) (infos : List ArrayInfo)
    (totalItems : ℕ) : JValue → String → JValue
  | .obj fs, path => .obj (compress_fields cfg infos totalItems fs path)
  | .arr items, path =>
    match infos.find? (fun i => i.path = path) with
    | some info =>
      let tgt := match cfg.target_size with
        | some totalTarget => some (max cfg.min_points (totalTarget * info.size / totalItems))
        | none => none
      let r := compress_single_array (asRecords items) { cfg with target_size := tgt }
      .arr (r.data.map recJ)
    | none => .arr items
  | v, _ => v

/-- Dictionary traversal of `_compress_recursively`, preserving key order. -/
def compress_fields (cfg : ConfigR) (infos : List ArrayInfo)
    (totalItems : ℕ) : List (String × JValue) → String → List (String × JValue)
  | [], _ => []
  | (k, v) :: fs, path =>
    (k, compress_recursively cfg infos totalItems v (childPath path k)) ::
      compress_fields cfg infos totalItems fs path

end

/-- `_compress_nested_with_total_target` (lines 60-186), data part. -/
def compress_nested_with_total_target (data : JValue) (cfg : ConfigR) : JValue :=
  let infos := collect_arrays cfg data "root"
  if infos.isEmpty then data
  else compress_recursively cfg infos (total_items infos) data "root"

end DataReducer

/-! ## Reachability inside a JSON tree -/

/-- Reachability through object fields only: the chains of dictionary keys
the nested walkers follow, together with the path string they build. -/
inductive ObjReach : JValue → String → JValue → String → Prop where
  | refl (v : JValue) (p : String) : ObjReach v p v p
  | step {fs : List (String × JValue)} {p : String} {k : String} {u w : JValue}
      {q : String} :
      (k, u) ∈ fs → ObjReach u (childPath p k) w q → ObjReach (JValue.obj fs) p w q

/-- A value occurring anywhere inside a JSON tree, including inside arrays. -/
inductive SubVal : JValue → JValue → Prop where
  | refl (v : JValue) : SubVal v v
  | inObj {fs : List (String × JValue)} {k : String} {u w : JValue} :
      (k, u) ∈ fs → SubVal u w → SubVal (JValue.obj fs) w
  | inArr {items : List JValue} {u w : JValue} :
      u ∈ items → SubVal u w → SubVal (JValue.arr items) w

/-! ## Concrete inputs used by the witnesses and counterexamples -/

/-- Six records `{"v": x}`, `x = 10, 0, 10, 10, 30, 10`. -/
def sampleSix : List Record := [[("v", .int 10)], [("v", .int 0)], [("v", .int 10)],
  [("v", .int 10)], [("v", .int 30)], [("v", .int 10)]]

/-- Item-count configuration: target 3, floor 2. -/
def cfgItem : ConfigR :=
  { target_size := some 3, reduction_ratio := 3 / 10, preserve_anomalies := true,
    preserve_extremes := true, min_points := 2, sequence_key := "Cycle",
    min_array_size := 10 }

/-- Item-count configuration with a floor of 1 and target 1. -/
def cfgItemOne : ConfigR := { cfgItem with target_size := some 1, min_points := 1 }

/-- Item-count configuration: total budget 4, floor 3 (nested allocation). -/
def cfgItemFour : ConfigR := { cfgItem with target_size := some 4, min_points := 3 }

/-- Item-count configuration whose target equals the sample array length. -/
def cfgItemGe : ConfigR := { cfgItem with target_size := some 6 }

/-- Ratio-driven configuration of the `json-data-reducer.py` variant. -/
def cfgJson : ConfigJ :=
  { reduction_ratio := 1 / 2, preserve_anomalies := true, preserve_extremes := true,
    min_points := 2, sequence_key := "Cycle" }

/-- Token-mode configuration with a target of a single token. -/
def cfgTokOne : ConfigT :=
  { target_tokens := some 1, reduction_ratio := 3 / 10, preserve_anomalies := true,
    preserve_extremes := true, sequence_key := "Cycle", significant_cols := [],
    min_array_tokens := 10, skip_fields := [], skip_patterns := [] }

/-- Two records (used where the floor is 1 and the target 1). -/
def pairTwo : List Record := [[("v", .int 0)], [("v", .int 5)]]

/-- The one record whose nested payload the array sampler never sees. -/
def bigRec13 : Record := [("v", .int 13), ("x", .arr (List.replicate 50 (.int 1)))]

/-- Twenty-one records; record 13 carries the large hidden payload. -/
def sampleTwentyOne : List Record := (List.range 21).map (fun i =>
  if i = 13 then bigRec13 else [("v", .int i), ("x", .arr [])])

/-- Token-mode configuration whose target is far above any sample here. -/
def cfgTokHuge : ConfigT := { cfgTokOne with target_tokens := some 100000 }

/-- Token-mode configuration whose target equals the 21-sample's estimate. -/
def cfgTokEq : ConfigT :=
  { cfgTokOne with target_tokens := some (tokensOfRecords sampleTwentyOne) }

/-- Ten uniform records keyed by `k`. -/
def recTen (k : String) : List JValue := (List.range 10).map (fun i => .obj [(k, .int i)])

/-- Two ten-record arrays under one object. -/
def treeTwoArrays : JValue := .obj [("a", .arr (recTen "p")), ("b", .arr (recTen "q"))]

/-- Twelve uniform records. -/
def innerTwelve : List JValue := (List.range 12).map (fun i => .obj [("v", .int i)])

/-- A uniform-record array nested inside another array (not a dict value). -/
def treeNestedArr : JValue := .obj [("outer", .arr [.arr innerTwelve])]

/-- Token-mode configuration with a low compressibility floor. -/
def cfgTokFloor : ConfigT :=
  { cfgTokOne with target_tokens := some 100000, min_array_tokens := 5 }

/-- One skipped and one compressible array under one object. -/
def treeSkip : JValue := .obj [("keep", .arr (recTen "p")), ("shrink", .arr (recTen "q"))]

/-- Token-mode configuration skipping the `keep` path. -/
def cfgTokSkip : ConfigT :=
  { cfgTokOne with target_tokens := some 60, skip_fields := ["keep"] }

/-- The discovery entry of the skipped array of `treeSkip`. -/
def keepInfo : TokenReducer.ArrayInfo :=
  { path := "keep", size := 10, tokens := 81, data := recTen "p",
    skip := true, reason := "Matched skip configuration" }

/-- Four small records (all token estimates exact at this size). -/
def fourRecs : List Record :=
  [[("v", .int 1)], [("v", .int 2)], [("v", .int 3)], [("v", .int 9)]]

/-- Token-mode configuration whose target is above the four-record cost. -/
def cfgTokBig : ConfigT := { cfgTokOne with target_tokens := some 1000 }

/-! ## Lemmas: the sorted-list model of Python sets -/

theorem mem_setInsert (a x : ℕ) : ∀ s : List ℕ, a ∈ setInsert x s ↔ a = x ∨ a ∈ s := by
  intro s
  induction s with
  | nil => simp [setInsert]
  | cons y ys ih =>
    by_cases h1 : x < y
    · simp [setInsert, if_pos h1]
    · by_cases h2 : x = y
      · subst h2
        simp only [setInsert, if_neg h1, if_pos rfl]
        constructor
        · exact Or.inr
        · rintro (rfl | h) <;> simp_all
      · simp only [setInsert, if_neg h1, if_neg h2, List.mem_cons, ih]
        tauto

theorem pairwise_setInsert (x : ℕ) :
    ∀ s : List ℕ, s.Pairwise (· < ·) → (setInsert x s).Pairwise (· < ·) := by
  intro s
  induction s with
  | nil => intro _; simp [setInsert]
  | cons y ys ih =>
    intro hp
    rcases List.pairwise_cons.mp hp with ⟨hy, hys⟩
    by_cases h1 : x < y
    · simp only [setInsert, if_pos h1]
      exact List.pairwise_cons.mpr ⟨by
        intro b hb
        rcases List.mem_cons.mp hb with rfl | hb
        · exact h1
        · exact h1.trans (hy b hb), hp⟩
    · by_cases h2 : x = y
      · simpa [setInsert, if_neg h1, if_pos h2] using hp
      · have hyx : y < x := by omega
        simp only [setInsert, if_neg h1, if_neg h2]
        refine List.pairwise_cons.mpr ⟨?_, ih hys⟩
        intro b hb
        rcases (mem_setInsert b x ys).mp hb with rfl | hb
        · exact hyx
        · exact hy b hb

theorem length_setInsert_of_not_mem (x : ℕ) :
    ∀ s : List ℕ, x ∉ s → (setInsert x s).length = s.length + 1 := by
  intro s
  induction s with
  | nil => intro _; simp [setInsert]
  | cons y ys ih =>
    intro hx
    have hxy : x ≠ y := by simp_all
    have hxys : x ∉ ys := by simp_all
    by_cases h1 : x < y
    · simp [setInsert, if_pos h1]
    · simp [setInsert, if_neg h1, if_neg hxy, ih hxys]

theorem setInsert_of_mem (x : ℕ) :
    ∀ s : List ℕ, s.Pairwise (· < ·) → x ∈ s → setInsert x s = s := by
  intro s
  induction s with
  | nil => intro _ h; cases h
  | cons y ys ih =>
    intro hp hx
    rcases List.pairwise_cons.mp hp with ⟨hy, hys⟩
    rcases List.mem_cons.mp hx with rfl | hx
    · simp [setInsert]
    · have h1 : ¬ x < y := by
        have := hy x hx; omega
      have h2 : x ≠ y := by
        have := hy x hx; omega
      simp [setInsert, if_neg h1, if_neg h2, ih hys hx]

theorem mem_setUnion (a : ℕ) : ∀ (xs s : List ℕ), a ∈ setUnion s xs ↔ a ∈ s ∨ a ∈ xs := by
  intro xs
  induction xs with
  | nil => intro s; simp [setUnion]
  | cons x xs ih =>
    intro s
    show a ∈ setUnion (setInsert x s) xs ↔ _
    rw [ih (setInsert x s), mem_setInsert]
    simp only [List.mem_cons]
    tauto

theorem pairwise_setUnion :
    ∀ (xs s : List ℕ), s.Pairwise (· < ·) → (setUnion s xs).Pairwise (· < ·) := by
  intro xs
  induction xs with
  | nil => intro s h; exact h
  | cons x xs ih =>
    intro s h
    exact ih (setInsert x s) (pairwise_setInsert x s h)

theorem length_setUnion :
    ∀ (xs s : List ℕ), xs.Nodup → (∀ x ∈ xs, x ∉ s) →
      (setUnion s xs).length = s.length + xs.length := by
  intro xs
  induction xs with
  | nil => intro s _ _; rfl
  | cons x xs ih =>
    intro s hnd hdisj
    rcases List.nodup_cons.mp hnd with ⟨hx, hnd'⟩
    show (setUnion (setInsert x s) xs).length = _
    rw [ih (setInsert x s) hnd' (by
      intro a ha hmem
      rcases (mem_setInsert a x s).mp hmem with rfl | hmem
      · exact hx ha
      · exact hdisj a (List.mem_cons_of_mem _ ha) hmem)]
    rw [length_setInsert_of_not_mem x s (hdisj x (List.mem_cons_self _ _))]
    simp [List.length_cons]
    omega

/-- Two strictly sorted lists with the same members are equal. -/
theorem eq_of_pairwise_lt_of_mem_iff {l1 l2 : List ℕ}
    (h1 : l1.Pairwise (· < ·)) (h2 : l2.Pairwise (· < ·))
    (hmem : ∀ a, a ∈ l1 ↔ a ∈ l2) : l1 = l2 := by
  have hn1 : l1.Nodup := h1.imp Nat.ne_of_lt
  have hn2 : l2.Nodup := h2.imp Nat.ne_of_lt
  have hperm : l1.Perm l2 := by
    refine List.perm_of_nodup_nodup_toFinset_eq hn1 hn2 ?_
    ext a
    simp [List.mem_toFinset, hmem a]
  exact List.eq_of_perm_of_sorted hperm
    (List.Sorted.le_of_lt h1) (List.Sorted.le_of_lt h2) |>.symm ▸ rfl

/-! ## Lemmas: the stable descending sort -/

theorem insDesc_perm {α : Type} (k : α → Q) (x : α) :
    ∀ s : List α, (insDesc k s x).Perm (x :: s) := by
  intro s
  induction s with
  | nil => simp [insDesc]
  | cons y ys ih =>
    by_cases h : k y < k x
    · simp [insDesc, if_pos h]
    · simp only [insDesc, if_neg h]
      exact (ih.cons y).trans (List.Perm.swap x y ys)

theorem foldl_insDesc_perm {α : Type} (k : α → Q) :
    ∀ (l acc : List α), (l.foldl (insDesc k) acc).Perm (acc ++ l) := by
  intro l
  induction l with
  | nil => intro acc; simp
  | cons x xs ih =>
    intro acc
    show (xs.foldl (insDesc k) (insDesc k acc x)).Perm _
    refine (ih (insDesc k acc x)).trans ?_
    exact ((insDesc_perm k x acc).append_right xs).trans List.perm_middle.symm

theorem pySortDescBy_perm {α : Type} (k : α → Q) (l : List α) :
    (pySortDescBy k l).Perm l := by
  simpa using foldl_insDesc_perm k l []

/-! ## Lemmas: bounds of the salient set -/

theorem foldl_choice_mem {α : Type} (f : α → α → α)
    (hf : ∀ b i, f b i = i ∨ f b i = b) :
    ∀ (l : List α) (acc : α), l.foldl f acc = acc ∨ l.foldl f acc ∈ l := by
  intro l
  induction l with
  | nil => intro acc; exact Or.inl rfl
  | cons x xs ih =>
    intro acc
    rcases ih (f acc x) with h | h
    · rw [List.foldl_cons, h]
      rcases hf acc x with h2 | h2
      · rw [h2]; exact Or.inr (List.mem_cons_self _ _)
      · rw [h2]; exact Or.inl rfl
    · exact Or.inr (List.mem_cons_of_mem _ h)

theorem argminQ_lt_length (l : List Q) (h : 0 < l.length) : argminQ l < l.length := by
  unfold argminQ
  rcases foldl_choice_mem (fun b i => if l.getD i 0 < l.getD b 0 then i else b)
    (fun b i => by
      show (if l.getD i 0 < l.getD b 0 then i else b) = i ∨
        (if l.getD i 0 < l.getD b 0 then i else b) = b
      by_cases hlt : l.getD i 0 < l.getD b 0
      · rw [if_pos hlt]; exact Or.inl rfl
      · rw [if_neg hlt]; exact Or.inr rfl)
    (List.range l.length) 0 with hc | hc
  · rw [hc]; exact h
  · exact List.mem_range.mp hc

theorem argmaxQ_lt_length (l : List Q) (h : 0 < l.length) : argmaxQ l < l.length := by
  unfold argmaxQ
  rcases foldl_choice_mem (fun b i => if l.getD b 0 < l.getD i 0 then i else b)
    (fun b i => by
      show (if l.getD b 0 < l.getD i 0 then i else b) = i ∨
        (if l.getD b 0 < l.getD i 0 then i else b) = b
      by_cases hlt : l.getD b 0 < l.getD i 0
      · rw [if_pos hlt]; exact Or.inl rfl
      · rw [if_neg hlt]; exact Or.inr rfl)
    (List.range l.length) 0 with hc | hc
  · rw [hc]; exact h
  · exact List.mem_range.mp hc

theorem anomalyIdxs_lt (data : List Record) (c : String) :
    ∀ i ∈ anomalyIdxs data c, i < data.length := by
  intro i hi
  unfold anomalyIdxs at hi
  have := List.mem_of_mem_take hi
  exact List.mem_range.mp (List.mem_filter.mp this).1

theorem extremeIdxs_lt (data : List Record) (c : String) (h : 0 < data.length) :
    ∀ i ∈ extremeIdxs data c, i < data.length := by
  intro i hi
  unfold extremeIdxs at hi
  have hlen : ((colVals data c).map toQ).length = data.length := by
    simp [colVals]
  rcases List.mem_cons.mp hi with rfl | hi
  · have := argminQ_lt_length ((colVals data c).map toQ) (by omega)
    omega
  · rcases List.mem_cons.mp hi with rfl | hi
    · have := argmaxQ_lt_length ((colVals data c).map toQ) (by omega)
      omega
    · cases hi

theorem transitionIdxs_lt (data : List Record) (c : String) :
    ∀ i ∈ transitionIdxs data c, i < data.length := by
  intro i hi
  unfold transitionIdxs at hi
  rcases List.mem_flatMap.mp hi with ⟨j, hj, hij⟩
  have hjr : j ∈ List.range data.length := List.mem_of_mem_drop hj
  have hjlt : j < data.length := List.mem_range.mp hjr
  by_cases hc : getVal (data.getD j []) c ≠ getVal (data.getD (j - 1) []) c
  · rw [if_pos hc] at hij
    rcases List.mem_cons.mp hij with rfl | hij
    · omega
    · rcases List.mem_cons.mp hij with rfl | hij
      · omega
      · cases hij
  · rw [if_neg hc] at hij
    cases hij

theorem mem_foldl_setUnion (g : String → List ℕ) (a : ℕ) :
    ∀ (cols : List String) (s : List ℕ),
      a ∈ cols.foldl (fun s c => setUnion s (g c)) s ↔ a ∈ s ∨ ∃ c ∈ cols, a ∈ g c := by
  intro cols
  induction cols with
  | nil => intro s; simp
  | cons c cs ih =>
    intro s
    rw [List.foldl_cons, ih, mem_setUnion]
    constructor
    · rintro (⟨h | h⟩ | ⟨d, hd, hm⟩)
      · exact Or.inl h
      · exact Or.inr ⟨c, List.mem_cons_self _ _, h⟩
      · exact Or.inr ⟨d, List.mem_cons_of_mem _ hd, hm⟩
    · rintro (h | ⟨d, hd, hm⟩)
      · exact Or.inl (Or.inl h)
      · rcases List.mem_cons.mp hd with rfl | hd
        · exact Or.inl (Or.inr hm)
        · exact Or.inr ⟨d, hd, hm⟩

theorem pairwise_foldl_setUnion (g : String → List ℕ) :
    ∀ (cols : List String) (s : List ℕ), s.Pairwise (· < ·) →
      (cols.foldl (fun s c => setUnion s (g c)) s).Pairwise (· < ·) := by
  intro cols
  induction cols with
  | nil => intro s h; exact h
  | cons c cs ih =>
    intro s h
    exact ih _ (pairwise_setUnion _ _ h)

theorem mem_foldl_setUnion_of_mem (g : String → List ℕ) (a : ℕ)
    (cols : List String) (s : List ℕ) (ha : a ∈ s) :
    a ∈ cols.foldl (fun s c => setUnion s (g c)) s :=
  (mem_foldl_setUnion g a cols s).mpr (Or.inl ha)

theorem mem_salientIdxs_of_mem_base (data : List Record)
    (numerical categorical : List String) (pa pe : Bool) (a : ℕ)
    (ha : a ∈ setUnion [] [0, data.length - 1]) :
    a ∈ salientIdxs data numerical categorical pa pe := by
  unfold salientIdxs
  apply mem_foldl_setUnion_of_mem
  split
  · apply mem_foldl_setUnion_of_mem
    split
    · exact mem_foldl_setUnion_of_mem _ _ _ _ ha
    · exact ha
  · split
    · exact mem_foldl_setUnion_of_mem _ _ _ _ ha
    · exact ha

theorem mem_base_set (a n : ℕ) : a ∈ setUnion [] [0, n] ↔ a = 0 ∨ a = n := by
  rw [mem_setUnion]
  simp

theorem zero_mem_salientIdxs (data : List Record) (numerical categorical : List String)
    (pa pe : Bool) : 0 ∈ salientIdxs data numerical categorical pa pe :=
  mem_salientIdxs_of_mem_base data numerical categorical pa pe 0
    ((mem_base_set 0 _).mpr (Or.inl rfl))

theorem last_mem_salientIdxs (data : List Record) (numerical categorical : List String)
    (pa pe : Bool) :
    data.length - 1 ∈ salientIdxs data numerical categorical pa pe :=
  mem_salientIdxs_of_mem_base data numerical categorical pa pe _
    ((mem_base_set _ _).mpr (Or.inr rfl))

theorem salientIdxs_lt (data : List Record) (numerical categorical : List String)
    (pa pe : Bool) (hn : 0 < data.length) :
    ∀ a ∈ salientIdxs data numerical categorical pa pe, a < data.length := by
  have hbase : ∀ a ∈ setUnion [] [0, data.length - 1], a < data.length := by
    intro a ha
    rcases (mem_base_set a _).mp ha with rfl | rfl <;> omega
  intro a ha
  unfold salientIdxs at ha
  rcases (mem_foldl_setUnion _ _ _ _).mp ha with ha | ⟨c, _, hm⟩
  · split at ha
    · rcases (mem_foldl_setUnion _ _ _ _).mp ha with ha | ⟨c, _, hm⟩
      · split at ha
        · rcases (mem_foldl_setUnion _ _ _ _).mp ha with ha | ⟨c, _, hm⟩
          · exact hbase a ha
          · exact anomalyIdxs_lt data c a hm
        · exact hbase a ha
      · exact extremeIdxs_lt data c hn a hm
    · split at ha
      · rcases (mem_foldl_setUnion _ _ _ _).mp ha with ha | ⟨c, _, hm⟩
        · exact hbase a ha
        · exact anomalyIdxs_lt data c a hm
      · exact hbase a ha
  · exact transitionIdxs_lt data c a hm

theorem salientIdxs_pairwise (data : List Record) (numerical categorical : List String)
    (pa pe : Bool) : (salientIdxs data numerical categorical pa pe).Pairwise (· < ·) := by
  unfold salientIdxs
  apply pairwise_foldl_setUnion
  split
  · apply pairwise_foldl_setUnion
    split
    · apply pairwise_foldl_setUnion
      exact pairwise_setUnion _ _ List.Pairwise.nil
    · exact pairwise_setUnion _ _ List.Pairwise.nil
  · split
    · apply pairwise_foldl_setUnion
      exact pairwise_setUnion _ _ List.Pairwise.nil
    · exact pairwise_setUnion _ _ List.Pairwise.nil

/-! ## Lemmas: order preservation -/

/-- A strictly increasing list of valid indices selects a sublist. -/
theorem map_getD_sublist {α : Type} (data : List α) (d : α) (is : List ℕ)
    (hp : is.Pairwise (· < ·)) (hb : ∀ i ∈ is, i < data.length) :
    (is.map (fun i => data.getD i d)).Sublist data := by
  have h1 : (is.pmap (fun i (h : i < data.length) => (⟨i, h⟩ : Fin data.length)) hb).map
      (fun x => data[x]) = is.map (fun i => data.getD i d) := by
    rw [List.map_pmap]
    rw [show List.pmap (fun (a : ℕ) (h : a < data.length) => data[(⟨a, h⟩ : Fin data.length)])
          is hb
        = List.pmap (fun (a : ℕ) (_ : a < data.length) => data.getD a d) is hb from
      List.pmap_congr_left is (fun i _ h1 _ => (List.getD_eq_getElem data d h1).symm)]
    exact List.pmap_eq_map _ _ _ _
  rw [← h1]
  apply List.map_getElem_sublist
  rw [List.pairwise_pmap]
  exact hp.imp_of_mem (fun {a b} _ _ hab => by intro h1 h2; exact hab)

/-- A strictly increasing list of naturals below `n` is a sublist of
`range n`. -/
theorem pairwise_lt_sublist_range (l : List ℕ) (n : ℕ)
    (hp : l.Pairwise (· < ·)) (hb : ∀ x ∈ l, x < n) :
    l.Sublist (List.range n) := by
  have hlen : ∀ x ∈ l, x < (List.range n).length := by
    intro x hx
    rw [List.length_range]
    exact hb x hx
  have h1 := map_getD_sublist (List.range n) 0 l hp hlen
  have h2 : ∀ m : List ℕ, (∀ x ∈ m, x < n) → m.map (fun i => (List.range n).getD i 0) = m := by
    intro m
    induction m with
    | nil => intro _; rfl
    | cons x xs ih =>
      intro hbm
      simp only [List.map_cons]
      rw [List.getD_eq_getElem _ _
          (by rw [List.length_range]; exact hbm x (List.mem_cons_self _ _)),
        List.getElem_range, ih (fun y hy => hbm y (List.mem_cons_of_mem _ hy))]
  rw [h2 l hb] at h1
  exact h1

/-- A strictly increasing list of `n` naturals below `n` is `range n`. -/
theorem pairwise_lt_length_eq_range (l : List ℕ) (n : ℕ)
    (hp : l.Pairwise (· < ·)) (hb : ∀ x ∈ l, x < n) (hlen : l.length = n) :
    l = List.range n := by
  refine (pairwise_lt_sublist_range l n hp hb).eq_of_length ?_
  rw [hlen, List.length_range]

theorem map_getD_range (data : List Record) :
    (List.range data.length).map (fun i => data.getD i []) = data := by
  apply List.ext_getElem
  · simp
  · intro i h1 h2
    simp only [List.getElem_map, List.getElem_range]
    exact List.getD_eq_getElem data [] h2

theorem length_filter_split {α : Type} (p : α → Bool) :
    ∀ l : List α, (l.filter p).length + (l.filter (fun a => !p a)).length = l.length := by
  intro l
  induction l with
  | nil => rfl
  | cons x xs ih =>
    simp only [List.filter_cons]
    by_cases h : p x = true
    · rw [if_pos h, if_neg (by rw [h]; simp)]
      simp only [List.length_cons]
      omega
    · have h' : (!p x) = true := by
        rw [Bool.not_eq_true] at h
        rw [h]
        rfl
      rw [if_neg h, if_pos h']
      simp only [List.length_cons]
      omega

/-- `len(set(range(n)) - s)` for a duplicate-free `s ⊆ range(n)`. -/
theorem length_filter_not_contains (n : ℕ) (s : List ℕ) (hnd : s.Nodup)
    (hb : ∀ x ∈ s, x < n) :
    ((List.range n).filter (fun i => !s.contains i)).length = n - s.length := by
  have hperm : ((List.range n).filter (fun i => s.contains i)).Perm s := by
    refine List.perm_of_nodup_nodup_toFinset_eq
      ((List.nodup_range n).filter _) hnd ?_
    ext a
    simp only [List.mem_toFinset, List.mem_filter, List.mem_range, List.elem_eq_mem,
      decide_eq_true_eq]
    exact ⟨fun h => h.2, fun h => ⟨hb a h, h⟩⟩
  have h2 := length_filter_split (fun i => s.contains i) (List.range n)
  simp only [] at h2
  rw [hperm.length_eq, List.length_range] at h2
  omega

/-! ## Lemmas: the fill and trim blocks -/

theorem setUnion_base_eq (n : ℕ) (h : 2 ≤ n) : setUnion [] [0, n - 1] = [0, n - 1] := by
  show setInsert (n - 1) (setInsert 0 []) = [0, n - 1]
  have h1 : ¬ n - 1 < 0 := by omega
  have h2 : ¬ n - 1 = 0 := by omega
  simp [setInsert, h1, h2]

theorem grow_superset (data : List Record) (numerical : List String) (p0 : List ℕ)
    (target n : ℕ) : ∀ a ∈ p0, a ∈ growIndices data numerical p0 target n := by
  intro a ha
  exact (mem_setUnion a _ _).mpr (Or.inl ha)

theorem mem_grow_elim (data : List Record) (numerical : List String) (p0 : List ℕ)
    (target n : ℕ) (a : ℕ) (ha : a ∈ growIndices data numerical p0 target n) :
    a ∈ p0 ∨ (a ∈ List.range n ∧ a ∉ p0) := by
  rcases (mem_setUnion a _ _).mp ha with h | h
  · exact Or.inl h
  · have h2 := List.mem_of_mem_take h
    have h3 := (pySortDescBy_perm (fun i => sigScore data numerical i) _).mem_iff.mp h2
    have h4 := List.mem_filter.mp h3
    refine Or.inr ⟨h4.1, ?_⟩
    simpa using h4.2

theorem grow_lt (data : List Record) (numerical : List String) (p0 : List ℕ)
    (target n : ℕ) (hb : ∀ x ∈ p0, x < n) :
    ∀ a ∈ growIndices data numerical p0 target n, a < n := by
  intro a ha
  rcases mem_grow_elim data numerical p0 target n a ha with h | ⟨h, _⟩
  · exact hb a h
  · exact List.mem_range.mp h

theorem grow_pairwise (data : List Record) (numerical : List String) (p0 : List ℕ)
    (target n : ℕ) (hp : p0.Pairwise (· < ·)) :
    (growIndices data numerical p0 target n).Pairwise (· < ·) :=
  pairwise_setUnion _ _ hp

theorem grow_length (data : List Record) (numerical : List String) (p0 : List ℕ)
    (target n : ℕ) (hp : p0.Pairwise (· < ·)) (hb : ∀ x ∈ p0, x < n) :
    (growIndices data numerical p0 target n).length
      = p0.length + min (target - p0.length) (n - p0.length) := by
  unfold growIndices
  have hnd0 : p0.Nodup := hp.imp Nat.ne_of_lt
  have hperm := pySortDescBy_perm (fun i => sigScore data numerical i)
    ((List.range n).filter (fun i => !p0.contains i))
  have hndsr : (pySortDescBy (fun i => sigScore data numerical i)
      ((List.range n).filter (fun i => !p0.contains i))).Nodup :=
    hperm.nodup_iff.mpr ((List.nodup_range n).filter _)
  have hlensr : (pySortDescBy (fun i => sigScore data numerical i)
      ((List.range n).filter (fun i => !p0.contains i))).length = n - p0.length := by
    rw [hperm.length_eq]
    exact length_filter_not_contains n p0 hnd0 hb
  have hdisj : ∀ x ∈ (pySortDescBy (fun i => sigScore data numerical i)
      ((List.range n).filter (fun i => !p0.contains i))).take (target - p0.length),
      x ∉ p0 := by
    intro x hx
    have h2 := hperm.mem_iff.mp (List.mem_of_mem_take hx)
    have h4 := List.mem_filter.mp h2
    simpa using h4.2
  rw [length_setUnion _ _ (hndsr.sublist (List.take_sublist _ _)) hdisj,
    List.length_take, hlensr]

theorem trim_mem_iff (p0 : List ℕ) (target n : ℕ) (a : ℕ) :
    a ∈ trimIndices p0 target n ↔
      a ∈ setUnion [] [0, n - 1] ∨
      a ∈ (p0.filter (fun i => !(i = 0 || i = n - 1))).take
        ((p0.filter (fun i => !(i = 0 || i = n - 1))).length - (p0.length - target)) :=
  mem_setUnion a _ _

theorem trim_mem_zero (p0 : List ℕ) (target n : ℕ) : 0 ∈ trimIndices p0 target n :=
  (trim_mem_iff p0 target n 0).mpr (Or.inl ((mem_base_set 0 _).mpr (Or.inl rfl)))

theorem trim_mem_last (p0 : List ℕ) (target n : ℕ) : n - 1 ∈ trimIndices p0 target n :=
  (trim_mem_iff p0 target n _).mpr (Or.inl ((mem_base_set _ _).mpr (Or.inr rfl)))

theorem trim_lt (p0 : List ℕ) (target n : ℕ) (hb : ∀ x ∈ p0, x < n) (hn : 0 < n) :
    ∀ a ∈ trimIndices p0 target n, a < n := by
  intro a ha
  rcases (trim_mem_iff p0 target n a).mp ha with h | h
  · rcases (mem_base_set a _).mp h with rfl | rfl <;> omega
  · exact hb a ((List.filter_sublist p0).subset (List.mem_of_mem_take h))

theorem trim_pairwise (p0 : List ℕ) (target n : ℕ) :
    (trimIndices p0 target n).Pairwise (· < ·) :=
  pairwise_setUnion _ _ (pairwise_setUnion _ _ List.Pairwise.nil)

theorem trim_subset (p0 : List ℕ) (target n : ℕ) :
    ∀ a ∈ trimIndices p0 target n, a = 0 ∨ a = n - 1 ∨ a ∈ p0 := by
  intro a ha
  rcases (trim_mem_iff p0 target n a).mp ha with h | h
  · rcases (mem_base_set a _).mp h with rfl | rfl
    · exact Or.inl rfl
    · exact Or.inr (Or.inl rfl)
  · exact Or.inr (Or.inr ((List.filter_sublist p0).subset (List.mem_of_mem_take h)))

theorem trim_length (p0 : List ℕ) (target n : ℕ) (hp : p0.Pairwise (· < ·))
    (h0 : 0 ∈ p0) (hl : n - 1 ∈ p0) (hn : 2 ≤ n) (ht2 : 2 ≤ target)
    (htp : target ≤ p0.length) :
    (trimIndices p0 target n).length = target := by
  unfold trimIndices
  have hnd0 : p0.Nodup := hp.imp Nat.ne_of_lt
  have hkeepfixed : (p0.filter (fun i => i = 0 || i = n - 1)).length = 2 := by
    have hperm2 : (p0.filter (fun i => i = 0 || i = n - 1)).Perm [0, n - 1] := by
      refine List.perm_of_nodup_nodup_toFinset_eq (hnd0.filter _) ?_ ?_
      · simp only [List.nodup_cons, List.mem_singleton, List.not_mem_nil, not_false_iff,
          List.nodup_nil, and_true]
        omega
      · ext a
        simp only [List.mem_toFinset, List.mem_filter, List.mem_cons, List.mem_singleton,
          List.not_mem_nil, or_false, decide_eq_true_eq, Bool.or_eq_true]
        constructor
        · rintro ⟨_, rfl | rfl⟩
          · exact Or.inl rfl
          · exact Or.inr rfl
        · rintro (rfl | rfl)
          · exact ⟨h0, Or.inl rfl⟩
          · exact ⟨hl, Or.inr rfl⟩
    rw [hperm2.length_eq]
    rfl
  have hsplit := length_filter_split (fun i => i = 0 || i = n - 1) p0
  have hcan : (p0.filter (fun i => !(i = 0 || i = n - 1))).length = p0.length - 2 := by
    rw [hkeepfixed] at hsplit
    have : (p0.filter (fun a => !(a = 0 || a = n - 1))).length
        = (p0.filter (fun i => !(i = 0 || i = n - 1))).length := rfl
    omega
  have hcannodup : (p0.filter (fun i => !(i = 0 || i = n - 1))).Nodup := hnd0.filter _
  have hdisj : ∀ x ∈ (p0.filter (fun i => !(i = 0 || i = n - 1))).take
      ((p0.filter (fun i => !(i = 0 || i = n - 1))).length - (p0.length - target)),
      x ∉ setUnion [] [0, n - 1] := by
    intro x hx
    have h2 := List.mem_filter.mp (List.mem_of_mem_take hx)
    rw [setUnion_base_eq n hn]
    have h3 : ¬(x = 0 ∨ x = n - 1) := by simpa using h2.2
    simp only [List.mem_cons, List.mem_singleton, List.not_mem_nil]
    tauto
  rw [length_setUnion _ _ (hcannodup.sublist (List.take_sublist _ _)) hdisj,
    setUnion_base_eq n hn, List.length_take, hcan]
  show 2 + _ = target
  omega

/-! ## Structural spec of the item-count reducers -/

/-- Main-path structural properties of `data-reducer.py`'s
`_compress_single_array`: the preserved list is strictly increasing, keeps
`0` and `n-1`, holds only valid indices, and the output is the indexed
sublist of the input. -/
theorem DataReducer.compress_single_array_spec (data : List Record) (cfg : ConfigR)
    (hguard : cfg.min_points < data.length) :
    ∃ p : List ℕ,
      (DataReducer.compress_single_array data cfg).preserved = some p ∧
      (DataReducer.compress_single_array data cfg).data
        = p.map (fun i => data.getD i []) ∧
      p.Pairwise (· < ·) ∧ 0 ∈ p ∧ data.length - 1 ∈ p ∧
      (∀ a ∈ p, a < data.length) ∧
      (DataReducer.compress_single_array data cfg).data.Sublist data := by
  unfold DataReducer.compress_single_array
  rw [if_neg (by omega)]
  simp only []
  set n := data.length with hn
  have hn0 : 0 < n := by omega
  set numerical := DataReducer.numericalCols data cfg with hnum
  set categorical := DataReducer.categoricalCols data cfg with hcat
  set target_size := (match cfg.target_size with
    | some t => max cfg.min_points (min t n)
    | none => max cfg.min_points (((Q.ofInt n) * (1 - cfg.reduction_ratio)).floorToNat))
    with htarget
  set p0 := salientIdxs data numerical categorical
    cfg.preserve_anomalies cfg.preserve_extremes with hp0
  have hp0pw : p0.Pairwise (· < ·) := salientIdxs_pairwise _ _ _ _ _
  have hp0z : 0 ∈ p0 := zero_mem_salientIdxs _ _ _ _ _
  have hp0l : n - 1 ∈ p0 := last_mem_salientIdxs _ _ _ _ _
  have hp0b : ∀ a ∈ p0, a < n := salientIdxs_lt _ _ _ _ _ hn0
  by_cases h1 : p0.length < target_size
  · rw [if_pos h1]
    refine ⟨growIndices data numerical p0 target_size n, rfl, rfl,
      grow_pairwise _ _ _ _ _ hp0pw,
      grow_superset _ _ _ _ _ 0 hp0z,
      grow_superset _ _ _ _ _ _ hp0l,
      grow_lt _ _ _ _ _ hp0b, ?_⟩
    exact map_getD_sublist data [] _ (grow_pairwise _ _ _ _ _ hp0pw)
      (grow_lt _ _ _ _ _ hp0b)
  · rw [if_neg h1]
    by_cases h2 : target_size < p0.length
    · rw [if_pos h2]
      refine ⟨trimIndices p0 target_size n, rfl, rfl,
        trim_pairwise _ _ _,
        trim_mem_zero _ _ _,
        trim_mem_last _ _ _,
        trim_lt _ _ _ hp0b hn0, ?_⟩
      exact map_getD_sublist data [] _ (trim_pairwise _ _ _) (trim_lt _ _ _ hp0b hn0)
    · rw [if_neg h2]
      exact ⟨p0, rfl, rfl, hp0pw, hp0z, hp0l, hp0b,
        map_getD_sublist data [] _ hp0pw hp0b⟩

/-- Exact output size of `data-reducer.py`'s `_compress_single_array` with
an item-count target `t ≤ n` and a min-points floor of at least 2. -/
theorem DataReducer.compress_single_array_size (data : List Record) (cfg : ConfigR)
    (t : ℕ) (hguard : cfg.min_points < data.length) (ht : cfg.target_size = some t)
    (htn : t ≤ data.length) (hm2 : 2 ≤ cfg.min_points) :
    (DataReducer.compress_single_array data cfg).compressed_size
      = min (max t cfg.min_points) data.length := by
  unfold DataReducer.compress_single_array
  rw [if_neg (by omega)]
  simp only []
  set n := data.length with hn
  have hn0 : 0 < n := by omega
  set numerical := DataReducer.numericalCols data cfg with hnum
  set categorical := DataReducer.categoricalCols data cfg with hcat
  set p0 := salientIdxs data numerical categorical
    cfg.preserve_anomalies cfg.preserve_extremes with hp0
  have hp0pw : p0.Pairwise (· < ·) := salientIdxs_pairwise _ _ _ _ _
  have hp0z : 0 ∈ p0 := zero_mem_salientIdxs _ _ _ _ _
  have hp0l : n - 1 ∈ p0 := last_mem_salientIdxs _ _ _ _ _
  have hp0b : ∀ a ∈ p0, a < n := salientIdxs_lt _ _ _ _ _ hn0
  rw [ht]
  dsimp only
  have htv : cfg.min_points ⊔ t ⊓ n = max t cfg.min_points := by
    show max cfg.min_points (min t n) = max t cfg.min_points
    omega
  rw [htv]
  set target_size := max t cfg.min_points with htarget
  have ht2 : 2 ≤ target_size := by omega
  have htlen : target_size ≤ n := by omega
  by_cases h1 : p0.length < target_size
  · rw [if_pos h1]
    rw [grow_length data numerical p0 target_size n hp0pw hp0b]
    omega
  · rw [if_neg h1]
    by_cases h2 : target_size < p0.length
    · rw [if_pos h2]
      rw [trim_length p0 target_size n hp0pw hp0z hp0l (by omega) ht2 (by omega)]
      omega
    · rw [if_neg h2]
      omega

/-- Main-path structural properties of `json-data-reducer.py`'s
`intelligent_json_reducer`. -/
theorem JsonReducer.intelligent_json_reducer_spec (data : List Record) (cfg : ConfigJ)
    (hguard : cfg.min_points < data.length) :
    ∃ p : List ℕ,
      (JsonReducer.intelligent_json_reducer data cfg).preserved = some p ∧
      (JsonReducer.intelligent_json_reducer data cfg).data
        = p.map (fun i => data.getD i []) ∧
      p.Pairwise (· < ·) ∧ 0 ∈ p ∧ data.length - 1 ∈ p ∧
      (∀ a ∈ p, a < data.length) ∧
      (JsonReducer.intelligent_json_reducer data cfg).data.Sublist data := by
  unfold JsonReducer.intelligent_json_reducer
  rw [if_neg (by omega)]
  simp only []
  set n := data.length with hn
  have hn0 : 0 < n := by omega
  set numerical := JsonReducer.numericalCols data cfg with hnum
  set categorical := JsonReducer.categoricalCols data cfg with hcat
  set target_size := max cfg.min_points (((Q.ofInt n) * (1 - cfg.reduction_ratio)).floorToNat)
    with htarget
  set p0 := salientIdxs data numerical categorical
    cfg.preserve_anomalies cfg.preserve_extremes with hp0
  have hp0pw : p0.Pairwise (· < ·) := salientIdxs_pairwise _ _ _ _ _
  have hp0z : 0 ∈ p0 := zero_mem_salientIdxs _ _ _ _ _
  have hp0l : n - 1 ∈ p0 := last_mem_salientIdxs _ _ _ _ _
  have hp0b : ∀ a ∈ p0, a < n := salientIdxs_lt _ _ _ _ _ hn0
  by_cases h1 : p0.length < target_size
  · rw [if_pos h1]
    refine ⟨growIndices data numerical p0 target_size n, rfl, rfl,
      grow_pairwise _ _ _ _ _ hp0pw,
      grow_superset _ _ _ _ _ 0 hp0z,
      grow_superset _ _ _ _ _ _ hp0l,
      grow_lt _ _ _ _ _ hp0b, ?_⟩
    exact map_getD_sublist data [] _ (grow_pairwise _ _ _ _ _ hp0pw)
      (grow_lt _ _ _ _ _ hp0b)
  · rw [if_neg h1]
    exact ⟨p0, rfl, rfl, hp0pw, hp0z, hp0l, hp0b,
      map_getD_sublist data [] _ hp0pw hp0b⟩

/-! ## Lemmas: the token growth loop -/

theorem TokenReducer.growthLoop_superset (data : List Record) (target : ℕ) :
    ∀ (cands s : List ℕ) (cur a : ℕ), a ∈ s →
      a ∈ (TokenReducer.growthLoop data target cands s cur).1 := by
  intro cands
  induction cands with
  | nil => intro s cur a ha; exact ha
  | cons idx rest ih =>
    intro s cur a ha
    show a ∈ (if selTokens data (setInsert idx s) ≤ target then
        TokenReducer.growthLoop data target rest (setInsert idx s)
          (selTokens data (setInsert idx s))
      else (s, cur)).1
    split
    · exact ih _ _ a ((mem_setInsert a idx s).mpr (Or.inr ha))
    · exact ha

theorem TokenReducer.growthLoop_mem_elim (data : List Record) (target : ℕ) :
    ∀ (cands s : List ℕ) (cur a : ℕ),
      a ∈ (TokenReducer.growthLoop data target cands s cur).1 → a ∈ s ∨ a ∈ cands := by
  intro cands
  induction cands with
  | nil => intro s cur a ha; exact Or.inl ha
  | cons idx rest ih =>
    intro s cur a ha
    rw [show TokenReducer.growthLoop data target (idx :: rest) s cur
        = (if selTokens data (setInsert idx s) ≤ target then
            TokenReducer.growthLoop data target rest (setInsert idx s)
              (selTokens data (setInsert idx s))
          else (s, cur)) from rfl] at ha
    split at ha
    · rcases ih _ _ a ha with h | h
      · rcases (mem_setInsert a idx s).mp h with rfl | h
        · exact Or.inr (List.mem_cons_self _ _)
        · exact Or.inl h
      · exact Or.inr (List.mem_cons_of_mem _ h)
    · exact Or.inl ha

theorem TokenReducer.growthLoop_pairwise (data : List Record) (target : ℕ) :
    ∀ (cands s : List ℕ) (cur : ℕ), s.Pairwise (· < ·) →
      (TokenReducer.growthLoop data target cands s cur).1.Pairwise (· < ·) := by
  intro cands
  induction cands with
  | nil => intro s cur h; exact h
  | cons idx rest ih =>
    intro s cur h
    show (if selTokens data (setInsert idx s) ≤ target then
        TokenReducer.growthLoop data target rest (setInsert idx s)
          (selTokens data (setInsert idx s))
      else (s, cur)).1.Pairwise (· < ·)
    split
    · exact ih _ _ (pairwise_setInsert idx s h)
    · exact h

theorem TokenReducer.growthLoop_le (data : List Record) (target : ℕ) :
    ∀ (cands s : List ℕ) (cur : ℕ), cur ≤ target →
      (TokenReducer.growthLoop data target cands s cur).2 ≤ target := by
  intro cands
  induction cands with
  | nil => intro s cur h; exact h
  | cons idx rest ih =>
    intro s cur h
    show (if selTokens data (setInsert idx s) ≤ target then
        TokenReducer.growthLoop data target rest (setInsert idx s)
          (selTokens data (setInsert idx s))
      else (s, cur)).2 ≤ target
    split
    · next hle => exact ih _ _ hle
    · exact h

theorem TokenReducer.growthLoop_tokens (data : List Record) (target : ℕ) :
    ∀ (cands s : List ℕ) (cur : ℕ), cur = selTokens data s →
      (TokenReducer.growthLoop data target cands s cur).2
        = selTokens data (TokenReducer.growthLoop data target cands s cur).1 := by
  intro cands
  induction cands with
  | nil => intro s cur h; exact h
  | cons idx rest ih =>
    intro s cur h
    show (if selTokens data (setInsert idx s) ≤ target then
        TokenReducer.growthLoop data target rest (setInsert idx s)
          (selTokens data (setInsert idx s))
      else (s, cur)).2 = selTokens data (if selTokens data (setInsert idx s) ≤ target then
        TokenReducer.growthLoop data target rest (setInsert idx s)
          (selTokens data (setInsert idx s))
      else (s, cur)).1
    split
    · exact ih _ _ rfl
    · exact h

theorem TokenReducer.growthStates_le (data : List Record) (target : ℕ) :
    ∀ (cands s : List ℕ) (cur : ℕ), cur = selTokens data s → cur ≤ target →
      ∀ sel ∈ TokenReducer.growthStates data target cands s cur,
        selTokens data sel ≤ target := by
  intro cands
  induction cands with
  | nil =>
    intro s cur hc hle sel hsel
    rcases List.mem_singleton.mp hsel with rfl
    rw [← hc]; exact hle
  | cons idx rest ih =>
    intro s cur hc hle sel hsel
    rw [show TokenReducer.growthStates data target (idx :: rest) s cur
        = (if selTokens data (setInsert idx s) ≤ target then
            s :: TokenReducer.growthStates data target rest (setInsert idx s)
              (selTokens data (setInsert idx s))
          else [s]) from rfl] at hsel
    split at hsel
    · next hle2 =>
      rcases List.mem_cons.mp hsel with rfl | hsel
      · rw [← hc]; exact hle
      · exact ih _ _ rfl hle2 sel hsel
    · rcases List.mem_singleton.mp hsel with rfl
      rw [← hc]; exact hle

theorem TokenReducer.growthLoop_mem_states (data : List Record) (target : ℕ) :
    ∀ (cands s : List ℕ) (cur : ℕ),
      (TokenReducer.growthLoop data target cands s cur).1
        ∈ TokenReducer.growthStates data target cands s cur := by
  intro cands
  induction cands with
  | nil => intro s cur; exact List.mem_singleton.mpr rfl
  | cons idx rest ih =>
    intro s cur
    show (if selTokens data (setInsert idx s) ≤ target then
        TokenReducer.growthLoop data target rest (setInsert idx s)
          (selTokens data (setInsert idx s))
      else (s, cur)).1 ∈ (if selTokens data (setInsert idx s) ≤ target then
        s :: TokenReducer.growthStates data target rest (setInsert idx s)
          (selTokens data (setInsert idx s))
      else [s])
    split
    · exact List.mem_cons_of_mem _ (ih _ _)
    · exact List.mem_singleton.mpr rfl

/-! ## Lemmas: the token shrink loop -/

theorem TokenReducer.bestRemoval_ne_none_of_acc (data : List Record) (s : List ℕ) :
    ∀ (w : List ℕ) (acc : Option (ℕ × ℕ)), acc ≠ none →
      TokenReducer.bestRemoval data s w acc ≠ none := by
  intro w
  induction w with
  | nil => intro acc h; exact h
  | cons idx rest ih =>
    intro acc h
    show TokenReducer.bestRemoval data s rest _ ≠ none
    apply ih
    rcases acc with _ | ⟨bi, bt⟩
    · simp
    · dsimp only
      split <;> simp

theorem TokenReducer.bestRemoval_ne_none (data : List Record) (s : List ℕ)
    (w : List ℕ) (hw : w ≠ []) :
    TokenReducer.bestRemoval data s w none ≠ none := by
  match w with
  | [] => exact absurd rfl hw
  | idx :: rest =>
    show TokenReducer.bestRemoval data s rest _ ≠ none
    apply TokenReducer.bestRemoval_ne_none_of_acc
    simp

theorem TokenReducer.bestRemoval_spec (data : List Record) (s : List ℕ) :
    ∀ (w : List ℕ) (acc : Option (ℕ × ℕ)),
      (∀ q : ℕ × ℕ, acc = some q → q.2 = selTokens data (s.filter (fun j => j ≠ q.1))) →
      ∀ p : ℕ × ℕ, TokenReducer.bestRemoval data s w acc = some p →
        p.2 = selTokens data (s.filter (fun j => j ≠ p.1)) := by
  intro w
  induction w with
  | nil => intro acc hacc p hp; exact hacc p hp
  | cons idx rest ih =>
    intro acc hacc p hp
    refine ih _ ?_ p hp
    intro q hq
    match acc with
    | none =>
      simp only [Option.some.injEq] at hq
      rw [← hq]
    | some (bi, bt) =>
      have hbt := hacc (bi, bt) rfl
      dsimp only at hq
      split at hq
      · simp only [Option.some.injEq] at hq
        rw [← hq]
      · simp only [Option.some.injEq] at hq
        rw [← hq]
        exact hbt

theorem TokenReducer.shrinkLoop_subset (data : List Record) (target : ℕ) :
    ∀ (fuel : ℕ) (s cr : List ℕ) (cur : ℕ),
      ∀ a ∈ (TokenReducer.shrinkLoop data target fuel s cr cur).1, a ∈ s := by
  intro fuel
  induction fuel with
  | zero => intro s cr cur a ha; exact ha
  | succ fuel ih =>
    intro s cr cur a
    simp only [TokenReducer.shrinkLoop]
    by_cases hle : cur ≤ target
    · rw [if_pos hle]
      exact fun ha => ha
    · rw [if_neg hle]
      cases cr with
      | nil => exact fun ha => ha
      | cons c cs =>
        dsimp only
        cases hbr : bestRemoval data s ((c :: cs).drop ((c :: cs).length - 5)) none with
        | none => exact fun ha => ha
        | some p =>
          obtain ⟨bi, bt⟩ := p
          dsimp only
          intro ha
          exact (List.mem_filter.mp (ih _ _ _ a ha)).1

theorem TokenReducer.shrinkLoop_keep (data : List Record) (target : ℕ) :
    ∀ (fuel : ℕ) (s cr : List ℕ) (cur : ℕ) (a : ℕ), a ∈ s → a ∉ cr →
      a ∈ (TokenReducer.shrinkLoop data target fuel s cr cur).1 := by
  intro fuel
  induction fuel with
  | zero => intro s cr cur a ha _; exact ha
  | succ fuel ih =>
    intro s cr cur a ha hacr
    simp only [TokenReducer.shrinkLoop]
    by_cases hle : cur ≤ target
    · rw [if_pos hle]; exact ha
    · rw [if_neg hle]
      cases cr with
      | nil => exact ha
      | cons c cs =>
        dsimp only
        cases hbr : bestRemoval data s ((c :: cs).drop ((c :: cs).length - 5)) none with
        | none => exact ha
        | some p =>
          obtain ⟨bi, bt⟩ := p
          dsimp only
          have hbi : bi ∈ c :: cs := by
            rcases TokenReducer.bestRemoval_mem data s _ none (bi, bt) hbr with h | ⟨q, hq, _⟩
            · exact List.mem_of_mem_drop h
            · cases hq
          have hane : a ≠ bi := fun h => hacr (h ▸ hbi)
          refine ih _ _ _ a ?_ ?_
          · exact List.mem_filter.mpr ⟨ha, by simpa using hane⟩
          · intro hmem
            exact hacr (List.mem_of_mem_erase hmem)

theorem TokenReducer.shrinkLoop_pairwise (data : List Record) (target : ℕ) :
    ∀ (fuel : ℕ) (s cr : List ℕ) (cur : ℕ), s.Pairwise (· < ·) →
      (TokenReducer.shrinkLoop data target fuel s cr cur).1.Pairwise (· < ·) := by
  intro fuel
  induction fuel with
  | zero => intro s cr cur h; exact h
  | succ fuel ih =>
    intro s cr cur h
    simp only [TokenReducer.shrinkLoop]
    by_cases hle : cur ≤ target
    · rw [if_pos hle]; exact h
    · rw [if_neg hle]
      cases cr with
      | nil => exact h
      | cons c cs =>
        dsimp only
        cases hbr : bestRemoval data s ((c :: cs).drop ((c :: cs).length - 5)) none with
        | none => exact h
        | some p =>
          obtain ⟨bi, bt⟩ := p
          dsimp only
          exact ih _ _ _ (h.filter _)

theorem TokenReducer.shrinkLoop_complete (data : List Record) (target : ℕ) :
    ∀ (fuel : ℕ) (s cr : List ℕ) (cur : ℕ), cr.length ≤ fuel →
      (TokenReducer.shrinkLoop data target fuel s cr cur).2.2 ≤ target ∨
      (TokenReducer.shrinkLoop data target fuel s cr cur).2.1 = [] := by
  intro fuel
  induction fuel with
  | zero =>
    intro s cr cur hf
    have hcr : cr = [] := List.length_eq_zero.mp (Nat.le_zero.mp hf)
    subst hcr
    exact Or.inr rfl
  | succ fuel ih =>
    intro s cr cur hf
    simp only [TokenReducer.shrinkLoop]
    by_cases hle : cur ≤ target
    · rw [if_pos hle]; exact Or.inl hle
    · rw [if_neg hle]
      cases cr with
      | nil => exact Or.inr rfl
      | cons c cs =>
        dsimp only
        cases hbr : bestRemoval data s ((c :: cs).drop ((c :: cs).length - 5)) none with
        | none =>
          exfalso
          have hwin : (c :: cs).drop ((c :: cs).length - 5) ≠ [] := by
            have hlen : ((c :: cs).drop ((c :: cs).length - 5)).length
                = (c :: cs).length - ((c :: cs).length - 5) := List.length_drop _ _
            intro hnil
            rw [hnil] at hlen
            simp only [List.length_nil, List.length_cons] at hlen
            omega
          exact TokenReducer.bestRemoval_ne_none data s _ hwin hbr
        | some p =>
          obtain ⟨bi, bt⟩ := p
          dsimp only
          refine ih _ _ _ ?_
          have hbi : bi ∈ c :: cs := by
            rcases TokenReducer.bestRemoval_mem data s _ none (bi, bt) hbr with h | ⟨q, hq, _⟩
            · exact List.mem_of_mem_drop h
            · cases hq
          have herase := List.length_erase_of_mem hbi
          simp only [List.length_cons] at hf herase ⊢
          omega

theorem TokenReducer.shrinkLoop_tokens (data : List Record) (target : ℕ) :
    ∀ (fuel : ℕ) (s cr : List ℕ) (cur : ℕ), cur = selTokens data s →
      (TokenReducer.shrinkLoop data target fuel s cr cur).2.2
        = selTokens data (TokenReducer.shrinkLoop data target fuel s cr cur).1 := by
  intro fuel
  induction fuel with
  | zero => intro s cr cur h; exact h
  | succ fuel ih =>
    intro s cr cur h
    simp only [TokenReducer.shrinkLoop]
    by_cases hle : cur ≤ target
    · rw [if_pos hle]; exact h
    · rw [if_neg hle]
      cases cr with
      | nil => exact h
      | cons c cs =>
        dsimp only
        cases hbr : bestRemoval data s ((c :: cs).drop ((c :: cs).length - 5)) none with
        | none => exact h
        | some p =>
          obtain ⟨bi, bt⟩ := p
          dsimp only
          refine ih _ _ _ ?_
          exact TokenReducer.bestRemoval_spec data s _ none (by intro q hq; cases hq) (bi, bt) hbr

theorem TokenReducer.shrinkLoop_exhaust (data : List Record) (target : ℕ) :
    ∀ (fuel : ℕ) (s cr : List ℕ) (cur : ℕ),
      ∀ a ∈ (TokenReducer.shrinkLoop data target fuel s cr cur).1,
        (TokenReducer.shrinkLoop data target fuel s cr cur).2.1 = [] → a ∉ cr := by
  intro fuel
  induction fuel with
  | zero =>
    intro s cr cur a _ hnil
    have hcr : cr = [] := hnil
    rw [hcr]
    exact List.not_mem_nil a
  | succ fuel ih =>
    intro s cr cur a
    simp only [TokenReducer.shrinkLoop]
    by_cases hle : cur ≤ target
    · rw [if_pos hle]
      intro _ hnil
      have hcr : cr = [] := hnil
      rw [hcr]
      exact List.not_mem_nil a
    · rw [if_neg hle]
      cases cr with
      | nil =>
        intro _ _
        exact List.not_mem_nil a
      | cons c cs =>
        dsimp only
        cases hbr : bestRemoval data s ((c :: cs).drop ((c :: cs).length - 5)) none with
        | none =>
          intro _ hnil
          exact absurd hnil (List.cons_ne_nil c cs)
        | some p =>
          obtain ⟨bi, bt⟩ := p
          dsimp only
          intro ha hnil
          have hsub := TokenReducer.shrinkLoop_subset data target _ _ _ _ a ha
          have hane : a ≠ bi := by
            intro h
            have := (List.mem_filter.mp hsub).2
            simp [h] at this
          have hnotmem := ih _ _ _ a ha hnil
          intro hmem
          exact hnotmem ((List.mem_erase_of_ne hane).mpr hmem)

/-! ## Structural spec of the token reducer -/

theorem nodup_bounded_length_le (s : List ℕ) (n : ℕ) (hnd : s.Nodup)
    (hb : ∀ x ∈ s, x < n) : s.length ≤ n := by
  have h1 : s.toFinset.card = s.length := List.toFinset_card_of_nodup hnd
  have h2 : s.toFinset ⊆ Finset.range n := by
    intro a ha
    rw [Finset.mem_range]
    exact hb a (List.mem_toFinset.mp ha)
  have := Finset.card_le_card h2
  rw [h1, Finset.card_range] at this
  exact this

/-- The preserved set computed by the token reducer's main path. -/
def TokenReducer.preservedSet (data : List Record) (cfg : ConfigT) : List ℕ :=
  let n := data.length
  let numerical := TokenReducer.numericalCols data cfg
  let significant := TokenReducer.significantCols data cfg
  let preserved0 := salientIdxs data numerical significant
    cfg.preserve_anomalies cfg.preserve_extremes
  let cur0 := selTokens data preserved0
  match cfg.target_tokens with
  | none => preserved0
  | some target =>
    if cur0 < target ∧ preserved0.length < n then
      let remaining := (List.range n).filter (fun i => !preserved0.contains i)
      let sortedRemaining :=
        pySortDescBy (fun i => sigScore data numerical i) remaining
      (TokenReducer.growthLoop data target sortedRemaining preserved0 cur0).1
    else if target < cur0 ∧ 3 < preserved0.length then
      let canRemove := preserved0.filter (fun i => !(i = 0 || i = n - 1))
      (TokenReducer.shrinkLoop data target canRemove.length preserved0 canRemove cur0).1
    else preserved0

theorem TokenReducer.compress_single_array_eq_main (data : List Record) (cfg : ConfigT)
    (hn : 0 < data.length) (hguard : cfg.min_array_tokens < tokensOfRecords data) :
    TokenReducer.compress_single_array data cfg =
      { data := (TokenReducer.preservedSet data cfg).map (fun i => data.getD i []),
        preserved := some (TokenReducer.preservedSet data cfg),
        original_size := data.length,
        compressed_size := ((TokenReducer.preservedSet data cfg).map
          (fun i => data.getD i [])).length,
        original_tokens := tokensOfRecords data,
        compressed_tokens := tokensOfRecords
          ((TokenReducer.preservedSet data cfg).map (fun i => data.getD i [])) } := by
  unfold TokenReducer.compress_single_array TokenReducer.preservedSet
  rw [if_neg (by omega)]
  simp only []
  rw [if_neg (by omega)]

theorem TokenReducer.preservedSet_spec (data : List Record) (cfg : ConfigT)
    (hn : 0 < data.length) :
    (TokenReducer.preservedSet data cfg).Pairwise (· < ·) ∧
    0 ∈ TokenReducer.preservedSet data cfg ∧
    data.length - 1 ∈ TokenReducer.preservedSet data cfg ∧
    (∀ a ∈ TokenReducer.preservedSet data cfg, a < data.length) := by
  unfold TokenReducer.preservedSet
  simp only []
  set n := data.length with hdefn
  set numerical := TokenReducer.numericalCols data cfg
  set significant := TokenReducer.significantCols data cfg
  set p0 := salientIdxs data numerical significant
    cfg.preserve_anomalies cfg.preserve_extremes with hp0
  have hp0pw : p0.Pairwise (· < ·) := salientIdxs_pairwise _ _ _ _ _
  have hp0z : 0 ∈ p0 := zero_mem_salientIdxs _ _ _ _ _
  have hp0l : n - 1 ∈ p0 := last_mem_salientIdxs _ _ _ _ _
  have hp0b : ∀ a ∈ p0, a < n := salientIdxs_lt _ _ _ _ _ hn
  cases htt : cfg.target_tokens with
  | none => exact ⟨hp0pw, hp0z, hp0l, hp0b⟩
  | some target =>
    dsimp only
    by_cases h1 : selTokens data p0 < target ∧ p0.length < n
    · rw [if_pos h1]
      refine ⟨TokenReducer.growthLoop_pairwise data target _ _ _ hp0pw,
        TokenReducer.growthLoop_superset data target _ _ _ 0 hp0z,
        TokenReducer.growthLoop_superset data target _ _ _ _ hp0l, ?_⟩
      intro a ha
      rcases TokenReducer.growthLoop_mem_elim data target _ _ _ a ha with h | h
      · exact hp0b a h
      · have h2 := (pySortDescBy_perm (fun i => sigScore data numerical i) _).mem_iff.mp h
        exact List.mem_range.mp (List.mem_filter.mp h2).1
    · rw [if_neg h1]
      by_cases h2 : target < selTokens data p0 ∧ 3 < p0.length
      · rw [if_pos h2]
        have hnotcr : ∀ b : ℕ, (b = 0 ∨ b = n - 1) →
            b ∉ p0.filter (fun i => !(i = 0 || i = n - 1)) := by
          intro b hb hmem
          have := (List.mem_filter.mp hmem).2
          simp only [Bool.not_eq_true'] at this
          rcases hb with rfl | rfl <;> simp_all
        refine ⟨TokenReducer.shrinkLoop_pairwise data target _ _ _ _ hp0pw,
          TokenReducer.shrinkLoop_keep data target _ _ _ _ 0 hp0z
            (hnotcr 0 (Or.inl rfl)),
          TokenReducer.shrinkLoop_keep data target _ _ _ _ _ hp0l
            (hnotcr (n - 1) (Or.inr rfl)), ?_⟩
        intro a ha
        exact hp0b a (TokenReducer.shrinkLoop_subset data target _ _ _ _ a ha)
      · rw [if_neg h2]
        exact ⟨hp0pw, hp0z, hp0l, hp0b⟩

theorem two_mem_two_le_length (l : List ℕ) (a b : ℕ) (ha : a ∈ l) (hb : b ∈ l)
    (hab : a ≠ b) (hnd : l.Nodup) : 2 ≤ l.length := by
  have h1 : ({a, b} : Finset ℕ) ⊆ l.toFinset := by
    intro x hx
    rcases Finset.mem_insert.mp hx with rfl | hx
    · exact List.mem_toFinset.mpr ha
    · rw [Finset.mem_singleton] at hx
      subst hx
      exact List.mem_toFinset.mpr hb
  have h2 : ({a, b} : Finset ℕ).card = 2 := Finset.card_pair hab
  have h3 := Finset.card_le_card h1
  rw [h2, List.toFinset_card_of_nodup hnd] at h3
  exact h3

/-- When the salient selection is over the token target and large enough,
the shrink loop runs; on completion the selection either fits the target or
consists of exactly the first and last index. -/
theorem TokenReducer.preservedSet_shrink (data : List Record) (cfg : ConfigT)
    (target : ℕ) (hn : 0 < data.length)
    (htt : cfg.target_tokens = some target)
    (hover : target < selTokens data (salientIdxs data
      (TokenReducer.numericalCols data cfg) (TokenReducer.significantCols data cfg)
      cfg.preserve_anomalies cfg.preserve_extremes))
    (hlen3 : 3 < (salientIdxs data
      (TokenReducer.numericalCols data cfg) (TokenReducer.significantCols data cfg)
      cfg.preserve_anomalies cfg.preserve_extremes).length) :
    selTokens data (TokenReducer.preservedSet data cfg) ≤ target ∨
    TokenReducer.preservedSet data cfg = [0, data.length - 1] := by
  unfold TokenReducer.preservedSet
  simp only []
  rw [htt]
  dsimp only
  set n := data.length with hdefn
  set numerical := TokenReducer.numericalCols data cfg
  set significant := TokenReducer.significantCols data cfg
  set p0 := salientIdxs data numerical significant
    cfg.preserve_anomalies cfg.preserve_extremes with hp0def
  have hp0pw : p0.Pairwise (· < ·) := salientIdxs_pairwise _ _ _ _ _
  have hp0z : 0 ∈ p0 := zero_mem_salientIdxs _ _ _ _ _
  have hp0l : n - 1 ∈ p0 := last_mem_salientIdxs _ _ _ _ _
  have hp0b : ∀ a ∈ p0, a < n := salientIdxs_lt _ _ _ _ _ hn
  have hp0nd : p0.Nodup := hp0pw.imp Nat.ne_of_lt
  have hnge : 4 ≤ n := by
    have := nodup_bounded_length_le p0 n hp0nd hp0b
    omega
  rw [if_neg (by omega), if_pos ⟨hover, hlen3⟩]
  set canRemove := p0.filter (fun i => !(i = 0 || i = n - 1)) with hcrdef
  set res := TokenReducer.shrinkLoop data target canRemove.length p0 canRemove
    (selTokens data p0) with hres
  have htok : res.2.2 = selTokens data res.1 :=
    TokenReducer.shrinkLoop_tokens data target canRemove.length p0 canRemove
      (selTokens data p0) rfl
  rcases TokenReducer.shrinkLoop_complete data target canRemove.length p0 canRemove
    (selTokens data p0) (le_refl _) with h | h
  · left
    rw [← htok]
    exact h
  · right
    have hnotcr : ∀ b : ℕ, (b = 0 ∨ b = n - 1) → b ∉ canRemove := by
      intro b hb hmem
      have := (List.mem_filter.mp hmem).2
      simp only [Bool.not_eq_true'] at this
      rcases hb with rfl | rfl <;> simp_all
    refine eq_of_pairwise_lt_of_mem_iff
      (TokenReducer.shrinkLoop_pairwise data target _ _ _ _ hp0pw) ?_ ?_
    · refine List.pairwise_cons.mpr ⟨?_, ?_⟩
      · intro b hb
        rcases List.mem_singleton.mp hb with rfl
        omega
      · simp
    · intro a
      constructor
      · intro ha
        have hsub := TokenReducer.shrinkLoop_subset data target _ _ _ _ a ha
        have hexh := TokenReducer.shrinkLoop_exhaust data target _ _ _ _ a ha h
        have : a = 0 ∨ a = n - 1 := by
          by_contra hcontra
          push_neg at hcontra
          exact hexh (List.mem_filter.mpr ⟨hsub, by
            simp only [Bool.not_eq_true', Bool.or_eq_false_iff, decide_eq_false_iff_not]
            exact hcontra⟩)
        rcases this with rfl | rfl
        · exact List.mem_cons_self _ _
        · exact List.mem_cons_of_mem _ (List.mem_singleton.mpr rfl)
      · intro ha
        rcases List.mem_cons.mp ha with rfl | ha
        · exact TokenReducer.shrinkLoop_keep data target _ _ _ _ 0 hp0z
            (hnotcr 0 (Or.inl rfl))
        · rcases List.mem_singleton.mp ha with rfl
          exact TokenReducer.shrinkLoop_keep data target _ _ _ _ _ hp0l
            (hnotcr (n - 1) (Or.inr rfl))

/-! ## Identity cases of the reducers (growth accepts everything) -/

theorem TokenReducer.growthLoop_adds_all (data : List Record) (target n : ℕ)
    (htest : ∀ t : List ℕ, t.Pairwise (· < ·) → (∀ x ∈ t, x < n) →
      selTokens data t ≤ target) :
    ∀ (cands s : List ℕ) (cur : ℕ), s.Pairwise (· < ·) → (∀ x ∈ s, x < n) →
      (∀ x ∈ cands, x < n) →
      ∀ a, a ∈ (TokenReducer.growthLoop data target cands s cur).1 ↔ a ∈ s ∨ a ∈ cands := by
  intro cands
  induction cands with
  | nil =>
    intro s cur _ _ _ a
    constructor
    · intro h; exact Or.inl h
    · rintro (h | h)
      · exact h
      · cases h
  | cons idx rest ih =>
    intro s cur hpw hbs hbc a
    have hins_pw := pairwise_setInsert idx s hpw
    have hins_b : ∀ x ∈ setInsert idx s, x < n := by
      intro x hx
      rcases (mem_setInsert x idx s).mp hx with rfl | hx
      · exact hbc x (List.mem_cons_self _ _)
      · exact hbs x hx
    have htt : selTokens data (setInsert idx s) ≤ target := htest _ hins_pw hins_b
    show a ∈ (if selTokens data (setInsert idx s) ≤ target then
        TokenReducer.growthLoop data target rest (setInsert idx s)
          (selTokens data (setInsert idx s))
      else (s, cur)).1 ↔ _
    rw [if_pos htt,
      ih (setInsert idx s) _ hins_pw hins_b (fun x hx => hbc x (List.mem_cons_of_mem _ hx)) a,
      mem_setInsert]
    simp only [List.mem_cons]
    tauto

/-- Re-compressing with an item-count target at least the array length
returns the array unchanged. -/
theorem DataReducer.compress_id_of_target_ge (data : List Record) (cfg : ConfigR)
    (t : ℕ) (ht : cfg.target_size = some t) (htn : data.length ≤ t) :
    (DataReducer.compress_single_array data cfg).data = data := by
  unfold DataReducer.compress_single_array
  by_cases hg : data.length ≤ cfg.min_points
  · rw [if_pos hg]
  · rw [if_neg hg]
    simp only []
    rw [ht]
    dsimp only
    set n := data.length with hdefn
    set numerical := DataReducer.numericalCols data cfg
    set categorical := DataReducer.categoricalCols data cfg
    set p0 := salientIdxs data numerical categorical
      cfg.preserve_anomalies cfg.preserve_extremes with hp0def
    have hp0pw : p0.Pairwise (· < ·) := salientIdxs_pairwise _ _ _ _ _
    have hp0b : ∀ a ∈ p0, a < n := salientIdxs_lt _ _ _ _ _ (by omega)
    have hp0nd : p0.Nodup := hp0pw.imp Nat.ne_of_lt
    have hplen : p0.length ≤ n := nodup_bounded_length_le p0 n hp0nd hp0b
    have htv : cfg.min_points ⊔ t ⊓ n = n := by
      show max cfg.min_points (min t n) = n
      omega
    rw [htv]
    by_cases h1 : p0.length < n
    · rw [if_pos h1]
      have hglen := grow_length data numerical p0 n n hp0pw hp0b
      have hgpw := grow_pairwise data numerical p0 n n hp0pw
      have hgb := grow_lt data numerical p0 n n hp0b
      have hgeq : growIndices data numerical p0 n n = List.range n := by
        apply pairwise_lt_length_eq_range _ n hgpw hgb
        rw [hglen]
        omega
      show (growIndices data numerical p0 n n).map (fun i => data.getD i []) = data
      rw [hgeq]
      exact map_getD_range data
    · rw [if_neg h1, if_neg (by omega)]
      have hpeq : p0 = List.range n :=
        pairwise_lt_length_eq_range p0 n hp0pw hp0b (by omega)
      show p0.map (fun i => data.getD i []) = data
      rw [hpeq]
      exact map_getD_range data

/-- Re-compressing with a token target strictly above the current estimated
cost returns the array unchanged, provided no sub-selection estimates above
the whole array (as with the exact small-array cost). -/
theorem TokenReducer.compress_id_of_target_gt (data : List Record) (cfg : ConfigT)
    (T : ℕ) (ht : cfg.target_tokens = some T) (hgt : tokensOfRecords data < T)
    (hmono : ∀ s ∈ (List.range data.length).sublists,
      selTokens data s ≤ tokensOfRecords data) :
    (TokenReducer.compress_single_array data cfg).data = data := by
  unfold TokenReducer.compress_single_array
  by_cases h0 : data.length = 0
  · rw [if_pos h0]
  · rw [if_neg h0]
    simp only []
    by_cases hg : tokensOfRecords data ≤ cfg.min_array_tokens
    · rw [if_pos hg]
    · rw [if_neg hg]
      simp only []
      rw [ht]
      dsimp only
      set n := data.length with hdefn
      have hn : 0 < n := by omega
      set numerical := TokenReducer.numericalCols data cfg
      set significant := TokenReducer.significantCols data cfg
      set p0 := salientIdxs data numerical significant
        cfg.preserve_anomalies cfg.preserve_extremes with hp0def
      have hp0pw : p0.Pairwise (· < ·) := salientIdxs_pairwise _ _ _ _ _
      have hp0b : ∀ a ∈ p0, a < n := salientIdxs_lt _ _ _ _ _ hn
      have hp0nd : p0.Nodup := hp0pw.imp Nat.ne_of_lt
      have hplen : p0.length ≤ n := nodup_bounded_length_le p0 n hp0nd hp0b
      have hmono' : ∀ s : List ℕ, s.Pairwise (· < ·) → (∀ x ∈ s, x < n) →
          selTokens data s ≤ tokensOfRecords data := by
        intro s hp hb
        exact hmono s (List.mem_sublists.mpr (pairwise_lt_sublist_range s n hp hb))
      have hcur0 : selTokens data p0 < T :=
        lt_of_le_of_lt (hmono' p0 hp0pw hp0b) hgt
      by_cases h1 : p0.length < n
      · rw [if_pos ⟨hcur0, h1⟩]
        have hperm := pySortDescBy_perm (fun i => sigScore data numerical i)
          ((List.range n).filter (fun i => !p0.contains i))
        have hcb : ∀ x ∈ pySortDescBy (fun i => sigScore data numerical i)
            ((List.range n).filter (fun i => !p0.contains i)), x < n := by
          intro x hx
          exact List.mem_range.mp (List.mem_filter.mp (hperm.mem_iff.mp hx)).1
        have hloop := TokenReducer.growthLoop_adds_all data T n
          (fun t hp hb => le_trans (hmono' t hp hb) (le_of_lt hgt))
          (pySortDescBy (fun i => sigScore data numerical i)
            ((List.range n).filter (fun i => !p0.contains i)))
          p0 (selTokens data p0) hp0pw hp0b hcb
        have hres_pw := TokenReducer.growthLoop_pairwise data T
          (pySortDescBy (fun i => sigScore data numerical i)
            ((List.range n).filter (fun i => !p0.contains i)))
          p0 (selTokens data p0) hp0pw
        have hreq : (TokenReducer.growthLoop data T
            (pySortDescBy (fun i => sigScore data numerical i)
              ((List.range n).filter (fun i => !p0.contains i)))
            p0 (selTokens data p0)).1 = List.range n := by
          apply eq_of_pairwise_lt_of_mem_iff hres_pw (List.pairwise_lt_range n)
          intro a
          rw [hloop a]
          constructor
          · rintro (h | h)
            · exact List.mem_range.mpr (hp0b a h)
            · exact List.mem_range.mpr (hcb a h)
          · intro h
            by_cases hap : a ∈ p0
            · exact Or.inl hap
            · refine Or.inr (hperm.mem_iff.mpr (List.mem_filter.mpr ⟨h, ?_⟩))
              simpa using hap
        show (TokenReducer.growthLoop data T
            (pySortDescBy (fun i => sigScore data numerical i)
              ((List.range n).filter (fun i => !p0.contains i)))
            p0 (selTokens data p0)).1.map (fun i => data.getD i []) = data
        rw [hreq]
        exact map_getD_range data
      · rw [if_neg (fun h => h1 h.2), if_neg (fun h => absurd h.1 (by omega))]
        have hpeq : p0 = List.range n :=
          pairwise_lt_length_eq_range p0 n hp0pw hp0b (by omega)
        show p0.map (fun i => data.getD i []) = data
        rw [hpeq]
        exact map_getD_range data

/-! ## Helper facts for the claim theorems -/

theorem TokenReducer.compress_preserved_cases (data : List Record) (cfg : ConfigT)
    (p : List ℕ)
    (h : (TokenReducer.compress_single_array data cfg).preserved = some p) :
    0 < data.length ∧ cfg.min_array_tokens < tokensOfRecords data ∧
    p = TokenReducer.preservedSet data cfg := by
  by_cases h0 : data.length = 0
  · unfold TokenReducer.compress_single_array at h
    rw [if_pos h0] at h
    cases h
  · by_cases hg : tokensOfRecords data ≤ cfg.min_array_tokens
    · unfold TokenReducer.compress_single_array at h
      rw [if_neg h0] at h
      simp only [] at h
      rw [if_pos hg] at h
      cases h
    · rw [TokenReducer.compress_single_array_eq_main data cfg (by omega) (by omega)] at h
      refine ⟨by omega, by omega, ?_⟩
      injection h with h1
      exact h1.symm

theorem DataReducer.compress_preserved_guard (data : List Record) (cfg : ConfigR)
    (p : List ℕ)
    (h : (DataReducer.compress_single_array data cfg).preserved = some p) :
    cfg.min_points < data.length := by
  by_cases hg : data.length ≤ cfg.min_points
  · unfold DataReducer.compress_single_array at h
    rw [if_pos hg] at h
    cases h
  · omega

theorem JsonReducer.reducer_preserved_guard (data : List Record) (cfg : ConfigJ)
    (p : List ℕ)
    (h : (JsonReducer.intelligent_json_reducer data cfg).preserved = some p) :
    cfg.min_points < data.length := by
  by_cases hg : data.length ≤ cfg.min_points
  · unfold JsonReducer.intelligent_json_reducer at h
    rw [if_pos hg] at h
    cases h
  · omega

theorem TokenReducer.compress_data_sublist (data : List Record) (cfg : ConfigT) :
    (TokenReducer.compress_single_array data cfg).data.Sublist data := by
  by_cases h0 : data.length = 0
  · unfold TokenReducer.compress_single_array
    rw [if_pos h0]
  · by_cases hg : tokensOfRecords data ≤ cfg.min_array_tokens
    · unfold TokenReducer.compress_single_array
      rw [if_neg h0]
      simp only []
      rw [if_pos hg]
    · rw [TokenReducer.compress_single_array_eq_main data cfg (by omega) (by omega)]
      obtain ⟨hpw, _, _, hb⟩ := TokenReducer.preservedSet_spec data cfg (by omega)
      exact map_getD_sublist data [] _ hpw hb

theorem DataReducer.compress_single_sublist (data : List Record) (cfg : ConfigR) :
    (DataReducer.compress_single_array data cfg).data.Sublist data := by
  by_cases hg : data.length ≤ cfg.min_points
  · unfold DataReducer.compress_single_array
    rw [if_pos hg]
  · obtain ⟨p, _, _, _, _, _, _, hsub⟩ :=
      DataReducer.compress_single_array_spec data cfg (by omega)
    exact hsub

theorem JsonReducer.reducer_data_sublist (data : List Record) (cfg : ConfigJ) :
    (JsonReducer.intelligent_json_reducer data cfg).data.Sublist data := by
  by_cases hg : data.length ≤ cfg.min_points
  · unfold JsonReducer.intelligent_json_reducer
    rw [if_pos hg]
  · obtain ⟨p, _, _, _, _, _, _, hsub⟩ :=
      JsonReducer.intelligent_json_reducer_spec data cfg (by omega)
    exact hsub

theorem TokenReducer.compress_recursively_leaf (cfg : ConfigT)
    (infos : List TokenReducer.ArrayInfo) (C : ℕ) :
    ∀ (v : JValue) (path : String), (∀ fs, v ≠ .obj fs) → (∀ items, v ≠ .arr items) →
      TokenReducer.compress_recursively cfg infos C v path = v
  | .null, _, _, _ => rfl
  | .bool _, _, _, _ => rfl
  | .int _, _, _, _ => rfl
  | .str _, _, _, _ => rfl
  | .obj fs, _, h, _ => absurd rfl (h fs)
  | .arr items, _, _, h => absurd rfl (h items)

theorem DataReducer.compress_walk_leaf (cfg : ConfigR)
    (infos : List DataReducer.ArrayInfo) (C : ℕ) :
    ∀ (v : JValue) (path : String), (∀ fs, v ≠ .obj fs) → (∀ items, v ≠ .arr items) →
      DataReducer.compress_recursively cfg infos C v path = v
  | .null, _, _, _ => rfl
  | .bool _, _, _, _ => rfl
  | .int _, _, _, _ => rfl
  | .str _, _, _, _ => rfl
  | .obj fs, _, h, _ => absurd rfl (h fs)
  | .arr items, _, _, h => absurd rfl (h items)

theorem TokenReducer.compress_recursively_skip (cfg : ConfigT)
    (infos : List TokenReducer.ArrayInfo) (C : ℕ) (items : List JValue)
    (path : String) (info : TokenReducer.ArrayInfo)
    (hf : infos.find? (fun i => i.path = path) = some info)
    (hs : info.skip = true) :
    TokenReducer.compress_recursively cfg infos C (.arr items) path = .arr items := by
  simp only [TokenReducer.compress_recursively]
  rw [hf]
  dsimp only
  rw [if_pos hs]

theorem TokenReducer.compress_fields_eq (cfg : ConfigT)
    (infos : List TokenReducer.ArrayInfo) (C : ℕ) :
    ∀ (fs : List (String × JValue)) (path : String),
      TokenReducer.compress_fields cfg infos C fs path
        = fs.map (fun kv =>
            (kv.1, TokenReducer.compress_recursively cfg infos C kv.2 (childPath path kv.1))) := by
  intro fs
  induction fs with
  | nil => intro path; rfl
  | cons kv fs ih =>
    intro path
    obtain ⟨k, v⟩ := kv
    simp only [TokenReducer.compress_fields, List.map_cons]
    exact congrArg _ (ih path)

theorem find?_path_of_mem (q : String) :
    ∀ (infos : List TokenReducer.ArrayInfo) (info : TokenReducer.ArrayInfo),
      (infos.map (fun i => i.path)).Nodup → info ∈ infos → info.path = q →
      infos.find? (fun i => i.path = q) = some info := by
  intro infos
  induction infos with
  | nil => intro info _ h; cases h
  | cons i rest ih =>
    intro info hnd hmem hpath
    rw [List.map_cons, List.nodup_cons] at hnd
    rcases List.mem_cons.mp hmem with rfl | hmem2
    · exact List.find?_cons_of_pos _ (by simp [hpath])
    · have hne : ¬ i.path = q := by
        intro hq
        refine hnd.1 ?_
        rw [hq, ← hpath]
        exact List.mem_map_of_mem _ hmem2
      rw [List.find?_cons_of_neg _ (by simpa using hne)]
      exact ih info hnd.2 hmem2 hpath

theorem TokenReducer.compress_skip_frame (cfg : ConfigT)
    (infos : List TokenReducer.ArrayInfo) (C : ℕ) :
    ∀ (v : JValue) (path : String) (w : JValue) (q : String),
      ObjReach v path w q →
      ∀ (items : List JValue) (info : TokenReducer.ArrayInfo),
        w = .arr items →
        infos.find? (fun i => i.path = q) = some info → info.skip = true →
        ObjReach (TokenReducer.compress_recursively cfg infos C v path) path w q := by
  intro v path w q h
  induction h with
  | refl w p =>
    intro items info hw hf hs
    subst hw
    rw [TokenReducer.compress_recursively_skip cfg infos C items p info hf hs]
    exact ObjReach.refl _ _
  | step hku hre ih =>
    intro items info hw hf hs
    simp only [TokenReducer.compress_recursively]
    rw [TokenReducer.compress_fields_eq]
    exact ObjReach.step
      (List.mem_map_of_mem
        (fun kv => (kv.1, TokenReducer.compress_recursively cfg infos C kv.2 (childPath _ kv.1)))
        hku)
      (ih items info hw hf hs)

theorem TokenReducer.total_compressible_eq_aux :
    ∀ (infos : List TokenReducer.ArrayInfo) (acc : ℕ),
      infos.foldl (fun a i => if i.skip then a else a + i.tokens) acc
        = acc + ((infos.filter (fun i => !i.skip)).map (fun i => i.tokens)).sum := by
  intro infos
  induction infos with
  | nil => intro acc; simp
  | cons i rest ih =>
    intro acc
    simp only [List.foldl_cons, List.filter_cons]
    by_cases hs : i.skip = true
    · rw [if_pos hs, if_neg (by simp [hs])]
      exact ih acc
    · have hs' : i.skip = false := by
        cases hh : i.skip
        · rfl
        · exact absurd hh hs
      rw [if_neg (by simp [hs']), if_pos (by simp [hs'])]
      rw [ih (acc + i.tokens), List.map_cons, List.sum_cons]
      omega

theorem TokenReducer.total_compressible_eq (infos : List TokenReducer.ArrayInfo) :
    TokenReducer.total_compressible_tokens infos
      = ((infos.filter (fun i => !i.skip)).map (fun i => i.tokens)).sum := by
  unfold TokenReducer.total_compressible_tokens
  simpa using TokenReducer.total_compressible_eq_aux infos 0

theorem sum_map_div_le (T c : ℕ) :
    ∀ l : List ℕ, ((l.map (fun t => T * t / c)).sum ≤ T * l.sum / c) := by
  intro l
  induction l with
  | nil => simp
  | cons x xs ih =>
    simp only [List.map_cons, List.sum_cons]
    calc T * x / c + ((xs.map (fun t => T * t / c)).sum)
        ≤ T * x / c + T * xs.sum / c := Nat.add_le_add_left ih _
      _ ≤ (T * x + T * xs.sum) / c := Nat.add_div_le_add_div _ _ _
      _ = T * (x + xs.sum) / c := by rw [Nat.mul_add]

/-! ## Discovery characterised by object-field reachability -/

mutual

theorem collect_arrays_sound (cfg : ConfigT) :
    ∀ (v : JValue) (path : String) (info : TokenReducer.ArrayInfo),
      info ∈ TokenReducer.collect_arrays cfg v path →
      ∃ items : List JValue,
        ObjReach v path (.arr items) info.path ∧ 0 < items.length ∧
        items.all isObj = true ∧ info.size = items.length ∧
        info.tokens = estimate_tokens_for_array items ∧ info.data = items ∧
        (info.skip = true ↔ (TokenReducer.should_skip_field info.path cfg = true ∨
          info.tokens < cfg.min_array_tokens)) ∧
        (info.skip = true →
          info.reason = "Matched skip configuration" ∨
          info.reason = "Below minimum token threshold")
  | .null, path => by
    intro info h
    simp [TokenReducer.collect_arrays] at h
  | .bool b, path => by
    intro info h
    simp [TokenReducer.collect_arrays] at h
  | .int n, path => by
    intro info h
    simp [TokenReducer.collect_arrays] at h
  | .str t, path => by
    intro info h
    simp [TokenReducer.collect_arrays] at h
  | .arr items, path => by
    intro info h
    rw [TokenReducer.collect_arrays] at h
    by_cases hg : 0 < items.length ∧ items.all isObj = true
    · rw [if_pos hg] at h
      by_cases hskip : TokenReducer.should_skip_field path cfg = true
      · rw [if_pos hskip] at h
        rcases List.mem_singleton.mp h with rfl
        exact ⟨items, ObjReach.refl _ _, hg.1, hg.2, rfl, rfl, rfl,
          ⟨fun _ => Or.inl hskip, fun _ => rfl⟩, fun _ => Or.inl rfl⟩
      · rw [if_neg hskip] at h
        by_cases hfl : cfg.min_array_tokens ≤ estimate_tokens_for_array items
        · rw [if_pos hfl] at h
          rcases List.mem_singleton.mp h with rfl
          refine ⟨items, ObjReach.refl _ _, hg.1, hg.2, rfl, rfl, rfl, ?_, ?_⟩
          · constructor
            · intro hfalse
              cases hfalse
            · intro hcon
              rcases hcon with hcon | hcon
              · exact absurd hcon hskip
              · dsimp only at hcon
                omega
          · intro hfalse
            cases hfalse
        · rw [if_neg hfl] at h
          rcases List.mem_singleton.mp h with rfl
          exact ⟨items, ObjReach.refl _ _, hg.1, hg.2, rfl, rfl, rfl,
            ⟨fun _ => Or.inr (by dsimp only; omega), fun _ => rfl⟩, fun _ => Or.inr rfl⟩
    · rw [if_neg hg] at h
      cases h
  | .obj fs, path => by
    intro info h
    obtain ⟨k, u, hku, items, hre, rest⟩ := collect_fields_sound cfg fs path info h
    exact ⟨items, ObjReach.step hku hre, rest⟩

theorem collect_fields_sound (cfg : ConfigT) :
    ∀ (fs : List (String × JValue)) (path : String) (info : TokenReducer.ArrayInfo),
      info ∈ TokenReducer.collect_fields cfg fs path →
      ∃ (k : String) (u : JValue), (k, u) ∈ fs ∧
      ∃ items : List JValue,
        ObjReach u (childPath path k) (.arr items) info.path ∧ 0 < items.length ∧
        items.all isObj = true ∧ info.size = items.length ∧
        info.tokens = estimate_tokens_for_array items ∧ info.data = items ∧
        (info.skip = true ↔ (TokenReducer.should_skip_field info.path cfg = true ∨
          info.tokens < cfg.min_array_tokens)) ∧
        (info.skip = true →
          info.reason = "Matched skip configuration" ∨
          info.reason = "Below minimum token threshold")
  | [], path => by
    intro info h
    simp [TokenReducer.collect_fields] at h
  | (k, v) :: fs, path => by
    intro info h
    rw [TokenReducer.collect_fields] at h
    rcases List.mem_append.mp h with h1 | h2
    · obtain ⟨items, props⟩ := collect_arrays_sound cfg v (childPath path k) info h1
      exact ⟨k, v, List.mem_cons_self _ _, items, props⟩
    · obtain ⟨k2, u, hku, rest⟩ := collect_fields_sound cfg fs path info h2
      exact ⟨k2, u, List.mem_cons_of_mem _ hku, rest⟩

end

theorem collect_fields_complete (cfg : ConfigT) :
    ∀ (fs : List (String × JValue)) (path k : String) (u : JValue)
      (info : TokenReducer.ArrayInfo),
      (k, u) ∈ fs → info ∈ TokenReducer.collect_arrays cfg u (childPath path k) →
      info ∈ TokenReducer.collect_fields cfg fs path := by
  intro fs
  induction fs with
  | nil =>
    intro path k u info h _
    cases h
  | cons kv fs ih =>
    intro path k u info hmem hin
    obtain ⟨k0, v0⟩ := kv
    rw [TokenReducer.collect_fields]
    rcases List.mem_cons.mp hmem with heq | hmem2
    · injection heq with h1 h2
      subst h1
      subst h2
      exact List.mem_append.mpr (Or.inl hin)
    · exact List.mem_append.mpr (Or.inr (ih path k u info hmem2 hin))

theorem collect_arrays_complete (cfg : ConfigT) :
    ∀ (v : JValue) (path : String) (w : JValue) (q : String),
      ObjReach v path w q →
      ∀ items : List JValue, w = .arr items → 0 < items.length →
        items.all isObj = true →
      ∃ info ∈ TokenReducer.collect_arrays cfg v path,
        info.path = q ∧ info.data = items := by
  intro v path w q h
  induction h with
  | refl w p =>
    intro items hw h0 hall
    subst hw
    rw [TokenReducer.collect_arrays]
    rw [if_pos ⟨h0, hall⟩]
    by_cases hskip : TokenReducer.should_skip_field p cfg = true
    · rw [if_pos hskip]
      exact ⟨_, List.mem_singleton.mpr rfl, rfl, rfl⟩
    · rw [if_neg hskip]
      by_cases hfl : cfg.min_array_tokens ≤ estimate_tokens_for_array items
      · rw [if_pos hfl]
        exact ⟨_, List.mem_singleton.mpr rfl, rfl, rfl⟩
      · rw [if_neg hfl]
        exact ⟨_, List.mem_singleton.mpr rfl, rfl, rfl⟩
  | step hku hre ih =>
    intro items hw h0 hall
    obtain ⟨info, hin, hp, hd⟩ := ih items hw h0 hall
    exact ⟨info, collect_fields_complete cfg _ _ _ _ info hku hin, hp, hd⟩

/-! ## The claims -/

/-- Claim C1: whenever any of the three reducers actually compresses an
array (so that the result carries a preserved-index list), that list is
strictly increasing, contains index 0 and index `size - 1`, and the output
rows are the selected input rows in input order (a sublist of the input). -/
theorem claim_C1 :
    (∀ (data : List Record) (cfg : ConfigR) (p : List ℕ),
        (DataReducer.compress_single_array data cfg).preserved = some p →
        p.Pairwise (· < ·) ∧ 0 ∈ p ∧ data.length - 1 ∈ p ∧
        (DataReducer.compress_single_array data cfg).data
          = p.map (fun i => data.getD i []) ∧
        (DataReducer.compress_single_array data cfg).data.Sublist data) ∧
    (∀ (data : List Record) (cfg : ConfigJ) (p : List ℕ),
        (JsonReducer.intelligent_json_reducer data cfg).preserved = some p →
        p.Pairwise (· < ·) ∧ 0 ∈ p ∧ data.length - 1 ∈ p ∧
        (JsonReducer.intelligent_json_reducer data cfg).data
          = p.map (fun i => data.getD i []) ∧
        (JsonReducer.intelligent_json_reducer data cfg).data.Sublist data) ∧
    (∀ (data : List Record) (cfg : ConfigT) (p : List ℕ),
        (TokenReducer.compress_single_array data cfg).preserved = some p →
        p.Pairwise (· < ·) ∧ 0 ∈ p ∧ data.length - 1 ∈ p ∧
        (TokenReducer.compress_single_array data cfg).data
          = p.map (fun i => data.getD i []) ∧
        (TokenReducer.compress_single_array data cfg).data.Sublist data) := by
  refine ⟨?_, ?_, ?_⟩
  · intro data cfg p h
    have hguard := DataReducer.compress_preserved_guard data cfg p h
    obtain ⟨p2, h1, h2, h3, h4, h5, h6, h7⟩ :=
      DataReducer.compress_single_array_spec data cfg hguard
    rw [h1] at h
    injection h with hp
    subst hp
    exact ⟨h3, h4, h5, h2, h7⟩
  · intro data cfg p h
    have hguard := JsonReducer.reducer_preserved_guard data cfg p h
    obtain ⟨p2, h1, h2, h3, h4, h5, h6, h7⟩ :=
      JsonReducer.intelligent_json_reducer_spec data cfg hguard
    rw [h1] at h
    injection h with hp
    subst hp
    exact ⟨h3, h4, h5, h2, h7⟩
  · intro data cfg p h
    obtain ⟨hn, hguard, hp⟩ := TokenReducer.compress_preserved_cases data cfg p h
    subst hp
    obtain ⟨hpw, hz, hl, hb⟩ := TokenReducer.preservedSet_spec data cfg hn
    rw [TokenReducer.compress_single_array_eq_main data cfg hn hguard]
    exact ⟨hpw, hz, hl, rfl, map_getD_sublist data [] _ hpw hb⟩

set_option maxRecDepth 100000 in
/-- Claim C1, witnessed at concrete inputs of all three reducers. -/
theorem claim_C1_witness :
    ((DataReducer.compress_single_array sampleSix cfgItem).preserved = some [0, 1, 5] ∧
      (([0, 1, 5] : List ℕ).Pairwise (· < ·) ∧ 0 ∈ ([0, 1, 5] : List ℕ) ∧
        sampleSix.length - 1 ∈ ([0, 1, 5] : List ℕ) ∧
        (DataReducer.compress_single_array sampleSix cfgItem).data
          = [0, 1, 5].map (fun i => sampleSix.getD i []) ∧
        (DataReducer.compress_single_array sampleSix cfgItem).data.Sublist sampleSix)) ∧
    ((JsonReducer.intelligent_json_reducer sampleSix cfgJson).preserved
        = some [0, 1, 4, 5] ∧
      (([0, 1, 4, 5] : List ℕ).Pairwise (· < ·) ∧ 0 ∈ ([0, 1, 4, 5] : List ℕ) ∧
        sampleSix.length - 1 ∈ ([0, 1, 4, 5] : List ℕ) ∧
        (JsonReducer.intelligent_json_reducer sampleSix cfgJson).data
          = [0, 1, 4, 5].map (fun i => sampleSix.getD i []) ∧
        (JsonReducer.intelligent_json_reducer sampleSix cfgJson).data.Sublist sampleSix)) ∧
    ((TokenReducer.compress_single_array sampleSix cfgTokOne).preserved = some [0, 5] ∧
      (([0, 5] : List ℕ).Pairwise (· < ·) ∧ 0 ∈ ([0, 5] : List ℕ) ∧
        sampleSix.length - 1 ∈ ([0, 5] : List ℕ) ∧
        (TokenReducer.compress_single_array sampleSix cfgTokOne).data
          = [0, 5].map (fun i => sampleSix.getD i []) ∧
        (TokenReducer.compress_single_array sampleSix cfgTokOne).data.Sublist sampleSix)) :=
  ⟨⟨by decide, claim_C1.1 sampleSix cfgItem [0, 1, 5] (by decide)⟩,
   ⟨by decide, claim_C1.2.1 sampleSix cfgJson [0, 1, 4, 5] (by decide)⟩,
   ⟨by decide, claim_C1.2.2 sampleSix cfgTokOne [0, 5] (by decide)⟩⟩

/-- Claim C2 (amended): with an item-count target `t ≤ n` and a min-points
floor of at least 2 (below 2 the trim block keeps more than the formula
says), the compressed size is exactly `min (max t floor) n` and the
preserved indices are strictly increasing and include 0 and `n - 1`. -/
theorem claim_C2 (data : List Record) (cfg : ConfigR) (t : ℕ)
    (ht : cfg.target_size = some t) (htn : t ≤ data.length)
    (hm2 : 2 ≤ cfg.min_points) (hguard : cfg.min_points < data.length) :
    (DataReducer.compress_single_array data cfg).compressed_size
        = min (max t cfg.min_points) data.length ∧
    ∃ p : List ℕ,
      (DataReducer.compress_single_array data cfg).preserved = some p ∧
      p.Pairwise (· < ·) ∧ 0 ∈ p ∧ data.length - 1 ∈ p := by
  refine ⟨DataReducer.compress_single_array_size data cfg t hguard ht htn hm2, ?_⟩
  obtain ⟨p, h1, _, h3, h4, h5, _, _⟩ :=
    DataReducer.compress_single_array_spec data cfg hguard
  exact ⟨p, h1, h3, h4, h5⟩

set_option maxRecDepth 100000 in
/-- Claim C2 counterexample: with the floor at 1 and target 1 on a pair of
records the output has 2 records, not `min (max 1 1) 2 = 1`: the trim block
never reaches targets below 2 because it always keeps 0 and `n - 1`. -/
theorem claim_C2_cex :
    cfgItemOne.target_size = some 1 ∧ cfgItemOne.min_points = 1 ∧
    1 ≤ pairTwo.length ∧ cfgItemOne.min_points < pairTwo.length ∧
    (DataReducer.compress_single_array pairTwo cfgItemOne).compressed_size
      ≠ min (max 1 1) pairTwo.length := by
  decide

set_option maxRecDepth 100000 in
/-- Claim C2, witnessed on the six-record sample with target 3, floor 2. -/
theorem claim_C2_witness :
    (cfgItem.target_size = some 3 ∧ 3 ≤ sampleSix.length ∧ 2 ≤ cfgItem.min_points ∧
      cfgItem.min_points < sampleSix.length) ∧
    ((DataReducer.compress_single_array sampleSix cfgItem).compressed_size
        = min (max 3 cfgItem.min_points) sampleSix.length ∧
     ∃ p : List ℕ,
       (DataReducer.compress_single_array sampleSix cfgItem).preserved = some p ∧
       p.Pairwise (· < ·) ∧ 0 ∈ p ∧ sampleSix.length - 1 ∈ p) :=
  ⟨⟨by decide, by decide, by decide, by decide⟩,
   claim_C2 sampleSix cfgItem 3 (by decide) (by decide) (by decide) (by decide)⟩

/-- Claim C3 (amended): in token-cost mode, when the salient selection is
over the target and large enough for the shrink loop, the loop completes
either within the target or with exactly the selection `[0, n - 1]` (all
interior candidates removed — the result can then still exceed the
target); the selector never removes 0 or `n - 1`; and in growth mode every
selection the loop passes through estimates within the target. -/
theorem claim_C3 :
    (∀ (data : List Record) (cfg : ConfigT) (target : ℕ),
        0 < data.length → cfg.target_tokens = some target →
        target < selTokens data (salientIdxs data
          (TokenReducer.numericalCols data cfg) (TokenReducer.significantCols data cfg)
          cfg.preserve_anomalies cfg.preserve_extremes) →
        3 < (salientIdxs data
          (TokenReducer.numericalCols data cfg) (TokenReducer.significantCols data cfg)
          cfg.preserve_anomalies cfg.preserve_extremes).length →
        selTokens data (TokenReducer.preservedSet data cfg) ≤ target ∨
        TokenReducer.preservedSet data cfg = [0, data.length - 1]) ∧
    (∀ (data : List Record) (cfg : ConfigT) (p : List ℕ),
        (TokenReducer.compress_single_array data cfg).preserved = some p →
        0 ∈ p ∧ data.length - 1 ∈ p) ∧
    (∀ (data : List Record) (target : ℕ) (cands s : List ℕ) (cur : ℕ),
        cur = selTokens data s → cur ≤ target →
        ∀ sel ∈ TokenReducer.growthStates data target cands s cur,
          selTokens data sel ≤ target) := by
  refine ⟨?_, ?_, ?_⟩
  · intro data cfg target hn htt hover hlen
    exact TokenReducer.preservedSet_shrink data cfg target hn htt hover hlen
  · intro data cfg p h
    obtain ⟨hn, hguard, hp⟩ := TokenReducer.compress_preserved_cases data cfg p h
    subst hp
    obtain ⟨_, hz, hl, _⟩ := TokenReducer.preservedSet_spec data cfg hn
    exact ⟨hz, hl⟩
  · intro data target cands s cur hc hle
    exact TokenReducer.growthStates_le data target cands s cur hc hle

set_option maxRecDepth 100000 in
/-- Claim C3 counterexample: with a one-token target the shrink loop
terminates on the two-record selection `[0, 5]`, whose estimated cost of
17 tokens still exceeds the target — completion does not imply fitting. -/
theorem claim_C3_cex :
    cfgTokOne.target_tokens = some 1 ∧
    (TokenReducer.compress_single_array sampleSix cfgTokOne).preserved = some [0, 5] ∧
    1 < (TokenReducer.compress_single_array sampleSix cfgTokOne).compressed_tokens := by
  decide

set_option maxRecDepth 100000 in
/-- Claim C3, witnessed: on the six-record sample the exhausted shrink ends
at exactly the first and last index. -/
theorem claim_C3_witness :
    (0 < sampleSix.length ∧ cfgTokOne.target_tokens = some 1 ∧
      1 < selTokens sampleSix (salientIdxs sampleSix
        (TokenReducer.numericalCols sampleSix cfgTokOne)
        (TokenReducer.significantCols sampleSix cfgTokOne)
        cfgTokOne.preserve_anomalies cfgTokOne.preserve_extremes) ∧
      3 < (salientIdxs sampleSix
        (TokenReducer.numericalCols sampleSix cfgTokOne)
        (TokenReducer.significantCols sampleSix cfgTokOne)
        cfgTokOne.preserve_anomalies cfgTokOne.preserve_extremes).length) ∧
    (selTokens sampleSix (TokenReducer.preservedSet sampleSix cfgTokOne) ≤ 1 ∨
      TokenReducer.preservedSet sampleSix cfgTokOne = [0, sampleSix.length - 1]) :=
  ⟨⟨by decide, rfl, by decide, by decide⟩,
   claim_C3.1 sampleSix cfgTokOne 1 (by decide) rfl (by decide) (by decide)⟩

/-- Claim C4 (amended): in token-cost mode every allocation is
`floor (T * cost / total compressible cost)`, only non-skipped arrays are
allocated, the allocations sum to at most `T`, and the divisor is the sum
over the non-skipped arrays only.  (The item-count reducer deviates: its
`max(min_points, floor)` allocations can exceed the total budget.) -/
theorem claim_C4 :
    (∀ (infos : List TokenReducer.ArrayInfo) (T : ℕ),
        ∀ pr ∈ TokenReducer.allocate infos T,
          pr.1.skip = false ∧
          pr.2 = T * pr.1.tokens / TokenReducer.total_compressible_tokens infos) ∧
    (∀ (infos : List TokenReducer.ArrayInfo) (T : ℕ),
        ((TokenReducer.allocate infos T).map (fun pr => pr.2)).sum ≤ T) ∧
    (∀ infos : List TokenReducer.ArrayInfo,
        TokenReducer.total_compressible_tokens infos
          = ((infos.filter (fun i => !i.skip)).map (fun i => i.tokens)).sum) := by
  refine ⟨?_, ?_, TokenReducer.total_compressible_eq⟩
  · intro infos T pr hpr
    unfold TokenReducer.allocate at hpr
    simp only [] at hpr
    obtain ⟨i, hi, hpr2⟩ := List.mem_map.mp hpr
    have hskip := (List.mem_filter.mp hi).2
    subst hpr2
    constructor
    · simpa using hskip
    · rfl
  · intro infos T
    unfold TokenReducer.allocate
    simp only []
    rw [List.map_map]
    have h1 := sum_map_div_le T (TokenReducer.total_compressible_tokens infos)
      ((infos.filter (fun i => !i.skip)).map (fun i => i.tokens))
    rw [List.map_map] at h1
    have h2 : (((infos.filter (fun i => !i.skip)).map
        ((fun pr : TokenReducer.ArrayInfo × ℕ => pr.2) ∘
          (fun i => (i, T * i.tokens / TokenReducer.total_compressible_tokens infos)))).sum
        ≤ T * ((infos.filter (fun i => !i.skip)).map (fun i => i.tokens)).sum
            / TokenReducer.total_compressible_tokens infos) := h1
    rw [← TokenReducer.total_compressible_eq infos] at h2
    refine le_trans h2 ?_
    by_cases hc : TokenReducer.total_compressible_tokens infos = 0
    · rw [hc]
      simp
    · rw [Nat.mul_div_cancel _ (Nat.pos_of_ne_zero hc)]

set_option maxRecDepth 100000 in
/-- Claim C4 counterexample: the item-count reducer's nested allocation
`max(min_points, floor(T * size / total))` gives 3 + 3 = 6 on two
ten-record arrays under a total budget of 4. -/
theorem claim_C4_cex :
    cfgItemFour.target_size = some 4 ∧ cfgItemFour.min_points = 3 ∧
    ((DataReducer.allocate (DataReducer.collect_arrays cfgItemFour treeTwoArrays "root")
        cfgItemFour.min_points 4).map (fun pr => pr.2)) = [3, 3] ∧
    ¬ (((DataReducer.allocate (DataReducer.collect_arrays cfgItemFour treeTwoArrays "root")
        cfgItemFour.min_points 4).map (fun pr => pr.2)).sum ≤ 4) := by
  decide

set_option maxRecDepth 100000 in
/-- Claim C4, witnessed on the two-array tree with a skipped path. -/
theorem claim_C4_witness :
    ((TokenReducer.allocate (TokenReducer.collect_arrays cfgTokSkip treeSkip "root") 60).map
      (fun pr => pr.2)).sum ≤ 60 :=
  claim_C4.2.1 (TokenReducer.collect_arrays cfgTokSkip treeSkip "root") 60

/-- Claim C5 (amended): in item-count mode, when the salient set is over
the target the trim block keeps 0, `n - 1` and an *index-order prefix* of
the removable salient indices — it drops the removables of highest index,
not those of lowest significance (the selection stays inside the salient
set, reaches exactly the target when the floor is at least 2, and never
drops 0 or `n - 1`). -/
theorem claim_C5 (data : List Record) (cfg : ConfigR) (t : ℕ)
    (ht : cfg.target_size = some t) (hm2 : 2 ≤ cfg.min_points)
    (hguard : cfg.min_points < data.length)
    (hover : max cfg.min_points (min t data.length) <
      (salientIdxs data (DataReducer.numericalCols data cfg)
        (DataReducer.categoricalCols data cfg)
        cfg.preserve_anomalies cfg.preserve_extremes).length) :
    ∃ p : List ℕ,
      (DataReducer.compress_single_array data cfg).preserved = some p ∧
      0 ∈ p ∧ data.length - 1 ∈ p ∧
      p.length = max cfg.min_points (min t data.length) ∧
      (∀ a ∈ p, a ∈ salientIdxs data (DataReducer.numericalCols data cfg)
        (DataReducer.categoricalCols data cfg)
        cfg.preserve_anomalies cfg.preserve_extremes) ∧
      ∃ k : ℕ, ∀ a : ℕ, a ∈ p ↔
        a = 0 ∨ a = data.length - 1 ∨
        a ∈ ((salientIdxs data (DataReducer.numericalCols data cfg)
          (DataReducer.categoricalCols data cfg)
          cfg.preserve_anomalies cfg.preserve_extremes).filter
            (fun i => !(i = 0 || i = data.length - 1))).take k := by
  unfold DataReducer.compress_single_array
  rw [if_neg (by omega)]
  simp only []
  rw [ht]
  dsimp only
  set n := data.length with hn
  set numerical := DataReducer.numericalCols data cfg with hnum
  set categorical := DataReducer.categoricalCols data cfg with hcat
  set p0 := salientIdxs data numerical categorical
    cfg.preserve_anomalies cfg.preserve_extremes with hp0
  have hp0pw : p0.Pairwise (· < ·) := salientIdxs_pairwise _ _ _ _ _
  have hp0z : 0 ∈ p0 := zero_mem_salientIdxs _ _ _ _ _
  have hp0l : n - 1 ∈ p0 := last_mem_salientIdxs _ _ _ _ _
  set target1 := max cfg.min_points (min t n) with htarget
  rw [if_neg (by omega), if_pos (by omega)]
  refine ⟨trimIndices p0 target1 n, rfl, trim_mem_zero _ _ _, trim_mem_last _ _ _,
    ?_, ?_, ?_⟩
  · exact trim_length p0 target1 n hp0pw hp0z hp0l (by omega)
      (le_trans hm2 (le_max_left _ _)) (le_of_lt hover)
  · intro a ha
    rcases (trim_mem_iff p0 target1 n a).mp ha with hbase | htake
    · rcases (mem_base_set a (n - 1)).mp hbase with rfl | rfl
      · exact hp0z
      · exact hp0l
    · exact (List.mem_filter.mp (List.mem_of_mem_take htake)).1
  · refine ⟨(p0.filter (fun i => !(i = 0 || i = n - 1))).length - (p0.length - target1),
      fun a => ?_⟩
    rw [trim_mem_iff, mem_base_set]
    tauto

set_option maxRecDepth 100000 in
/-- Claim C5 counterexample: on the six-record sample the trim block keeps
`[0, 1, 5]` although removable index 1 scores strictly lower significance
than removable index 4 — the drop is by highest index, not by lowest
significance. -/
theorem claim_C5_cex :
    DataReducer.numericalCols sampleSix cfgItem = ["v"] ∧
    salientIdxs sampleSix (DataReducer.numericalCols sampleSix cfgItem)
      (DataReducer.categoricalCols sampleSix cfgItem)
      cfgItem.preserve_anomalies cfgItem.preserve_extremes = [0, 1, 4, 5] ∧
    sigScore sampleSix ["v"] 1 < sigScore sampleSix ["v"] 4 ∧
    (DataReducer.compress_single_array sampleSix cfgItem).preserved = some [0, 1, 5] := by
  decide

set_option maxRecDepth 100000 in
/-- Claim C5, witnessed on the six-record sample with target 3, floor 2. -/
theorem claim_C5_witness :
    (cfgItem.target_size = some 3 ∧ 2 ≤ cfgItem.min_points ∧
      cfgItem.min_points < sampleSix.length ∧
      max cfgItem.min_points (min 3 sampleSix.length) <
        (salientIdxs sampleSix (DataReducer.numericalCols sampleSix cfgItem)
          (DataReducer.categoricalCols sampleSix cfgItem)
          cfgItem.preserve_anomalies cfgItem.preserve_extremes).length) ∧
    (∃ p : List ℕ,
      (DataReducer.compress_single_array sampleSix cfgItem).preserved = some p ∧
      0 ∈ p ∧ sampleSix.length - 1 ∈ p ∧
      p.length = max cfgItem.min_points (min 3 sampleSix.length) ∧
      (∀ a ∈ p, a ∈ salientIdxs sampleSix (DataReducer.numericalCols sampleSix cfgItem)
        (DataReducer.categoricalCols sampleSix cfgItem)
        cfgItem.preserve_anomalies cfgItem.preserve_extremes) ∧
      ∃ k : ℕ, ∀ a : ℕ, a ∈ p ↔
        a = 0 ∨ a = sampleSix.length - 1 ∨
        a ∈ ((salientIdxs sampleSix (DataReducer.numericalCols sampleSix cfgItem)
          (DataReducer.categoricalCols sampleSix cfgItem)
          cfgItem.preserve_anomalies cfgItem.preserve_extremes).filter
            (fun i => !(i = 0 || i = sampleSix.length - 1))).take k) :=
  ⟨⟨by decide, by decide, by decide, by decide⟩,
   claim_C5 sampleSix cfgItem 3 (by decide) (by decide) (by decide) (by decide)⟩

/-- Claim C6 (amended): discovery records exactly the nonempty uniform-record
arrays reachable from the root through *object fields* (each with its size,
estimated cost, and a skip/compress classification by skip rule or
compressibility floor).  Uniform-record arrays nested inside other arrays
are at paths of the tree too, but discovery never descends into arrays and
misses them — see the counterexample. -/
theorem claim_C6 :
    (∀ (cfg : ConfigT) (v : JValue) (path : String),
        ∀ info ∈ TokenReducer.collect_arrays cfg v path,
          ∃ items : List JValue,
            ObjReach v path (.arr items) info.path ∧ 0 < items.length ∧
            items.all isObj = true ∧ info.size = items.length ∧
            info.tokens = estimate_tokens_for_array items ∧ info.data = items ∧
            (info.skip = true ↔
              (TokenReducer.should_skip_field info.path cfg = true ∨
               info.tokens < cfg.min_array_tokens))) ∧
    (∀ (cfg : ConfigT) (v : JValue) (path : String) (items : List JValue) (q : String),
        ObjReach v path (.arr items) q → 0 < items.length → items.all isObj = true →
        ∃ info ∈ TokenReducer.collect_arrays cfg v path,
          info.path = q ∧ info.data = items) := by
  constructor
  · intro cfg v path info h
    obtain ⟨items, h1, h2, h3, h4, h5, h6, h7, _⟩ := collect_arrays_sound cfg v path info h
    exact ⟨items, h1, h2, h3, h4, h5, h6, h7⟩
  · intro cfg v path items q hre h0 hall
    exact collect_arrays_complete cfg v path (.arr items) q hre items rfl h0 hall

set_option maxRecDepth 100000 in
/-- Claim C6 counterexample: a twelve-record uniform array sitting inside
another array is part of the tree, is nonempty, uniform and above the
compressibility floor, yet discovery records nothing at all. -/
theorem claim_C6_cex :
    SubVal treeNestedArr (.arr innerTwelve) ∧
    0 < innerTwelve.length ∧ innerTwelve.all isObj = true ∧
    cfgTokFloor.min_array_tokens ≤ estimate_tokens_for_array innerTwelve ∧
    TokenReducer.collect_arrays cfgTokFloor treeNestedArr "root" = [] :=
  ⟨SubVal.inObj (List.mem_cons_self _ _)
     (SubVal.inArr (List.mem_cons_self _ _) (SubVal.refl _)),
   by decide, by decide, by decide, by decide⟩

set_option maxRecDepth 100000 in
/-- Claim C6, witnessed: on the skip-configured two-array tree both arrays
are discovered, with the skip rule effective exactly on the `keep` path. -/
theorem claim_C6_witness :
    keepInfo ∈ TokenReducer.collect_arrays cfgTokSkip treeSkip "root" ∧
    (∃ items : List JValue,
      ObjReach treeSkip "root" (.arr items) keepInfo.path ∧ 0 < items.length ∧
      items.all isObj = true ∧ keepInfo.size = items.length ∧
      keepInfo.tokens = estimate_tokens_for_array items ∧ keepInfo.data = items ∧
      (keepInfo.skip = true ↔
        (TokenReducer.should_skip_field keepInfo.path cfgTokSkip = true ∨
         keepInfo.tokens < cfgTokSkip.min_array_tokens))) :=
  ⟨by decide,
   claim_C6.1 cfgTokSkip treeSkip "root" keepInfo (by decide)⟩

/-- Claim C7 (amended): re-compressing with an item-count target at least
the array length returns the array unchanged; re-compressing with a token
target *strictly above* the current estimate returns the array unchanged
provided no sub-selection estimates above the whole array (true of the
exact small-array estimator; the sampling estimator can break it, and at
target equal to the current estimate the reducer can still shrink — see
the counterexample). -/
theorem claim_C7 :
    (∀ (data : List Record) (cfg : ConfigR) (t : ℕ),
        cfg.target_size = some t → data.length ≤ t →
        (DataReducer.compress_single_array data cfg).data = data) ∧
    (∀ (data : List Record) (cfg : ConfigT) (T : ℕ),
        cfg.target_tokens = some T → tokensOfRecords data < T →
        (∀ s ∈ (List.range data.length).sublists,
          selTokens data s ≤ tokensOfRecords data) →
        (TokenReducer.compress_single_array data cfg).data = data) := by
  constructor
  · intro data cfg t ht htn
    exact DataReducer.compress_id_of_target_ge data cfg t ht htn
  · intro data cfg T ht hgt hmono
    exact TokenReducer.compress_id_of_target_gt data cfg T ht hgt hmono

set_option maxRecDepth 1000000 in
set_option maxHeartbeats 4000000 in
/-- Claim C7 counterexample: a token target equal to the current estimated
cost (so `target ≥ cost` as the claim demands) still changes the 21-record
sample: the sampler never reads record 13, so the full-array estimate is
low while mid-grown selections estimate high, and growth stops early. -/
theorem claim_C7_cex :
    cfgTokEq.target_tokens = some (tokensOfRecords sampleTwentyOne) ∧
    (TokenReducer.compress_single_array sampleTwentyOne cfgTokEq).data
      ≠ sampleTwentyOne :=
  ⟨rfl, by decide⟩

set_option maxRecDepth 100000 in
/-- Claim C7, witnessed for both reducers on small arrays with exact
estimates. -/
theorem claim_C7_witness :
    (cfgItemGe.target_size = some 6 ∧ sampleSix.length ≤ 6 ∧
      (DataReducer.compress_single_array sampleSix cfgItemGe).data = sampleSix) ∧
    (cfgTokBig.target_tokens = some 1000 ∧ tokensOfRecords fourRecs < 1000 ∧
      (∀ s ∈ (List.range fourRecs.length).sublists,
        selTokens fourRecs s ≤ tokensOfRecords fourRecs) ∧
      (TokenReducer.compress_single_array fourRecs cfgTokBig).data = fourRecs) :=
  ⟨⟨rfl, by decide, claim_C7.1 sampleSix cfgItemGe 6 rfl (by decide)⟩,
   ⟨rfl, by decide, by decide,
    claim_C7.2 fourRecs cfgTokBig 1000 rfl (by decide) (by decide)⟩⟩

/-- Claim C8: an array whose discovery entry is marked skip (by path rule
or by the compressibility floor) reappears unchanged at its place in the
output tree, and the proportional-allocation divisor counts only the
non-skipped entries.  (The paths of the discovered arrays are assumed
distinct, as they are for Python dictionaries.) -/
theorem claim_C8 :
    (∀ infos : List TokenReducer.ArrayInfo,
        TokenReducer.total_compressible_tokens infos
          = ((infos.filter (fun i => !i.skip)).map (fun i => i.tokens)).sum) ∧
    (∀ (cfg : ConfigT) (tree : JValue) (items : List JValue) (q : String)
        (info : TokenReducer.ArrayInfo),
        ((TokenReducer.collect_arrays cfg tree "root").map (fun i => i.path)).Nodup →
        info ∈ TokenReducer.collect_arrays cfg tree "root" → info.path = q →
        info.skip = true →
        ObjReach tree "root" (.arr items) q →
        ObjReach (TokenReducer.compress_nested_with_total_target tree cfg) "root"
          (.arr items) q) := by
  refine ⟨TokenReducer.total_compressible_eq, ?_⟩
  intro cfg tree items q info hnd hmem hpath hskip hre
  unfold TokenReducer.compress_nested_with_total_target
  simp only []
  by_cases hemp : ((TokenReducer.collect_arrays cfg tree "root").filter
      (fun i => !i.skip)).isEmpty = true
  · rw [if_pos hemp]
    exact hre
  · rw [if_neg hemp]
    exact TokenReducer.compress_skip_frame cfg _ _ tree "root" (.arr items) q hre items
      info rfl (find?_path_of_mem q _ info hnd hmem hpath) hskip

set_option maxRecDepth 100000 in
/-- Claim C8, witnessed: the skipped `keep` array of the two-array tree is
reachable unchanged in the compressed output. -/
theorem claim_C8_witness :
    (((TokenReducer.collect_arrays cfgTokSkip treeSkip "root").map
        (fun i => i.path)).Nodup ∧
      keepInfo ∈ TokenReducer.collect_arrays cfgTokSkip treeSkip "root" ∧
      keepInfo.path = "keep" ∧ keepInfo.skip = true ∧
      ObjReach treeSkip "root" (.arr (recTen "p")) "keep") ∧
    ObjReach (TokenReducer.compress_nested_with_total_target treeSkip cfgTokSkip) "root"
      (.arr (recTen "p")) "keep" :=
  ⟨⟨by decide, by decide, rfl, rfl,
    ObjReach.step (List.mem_cons_self _ _) (ObjReach.refl _ _)⟩,
   claim_C8.2 cfgTokSkip treeSkip (recTen "p") "keep" keepInfo (by decide) (by decide)
     rfl rfl (ObjReach.step (List.mem_cons_self _ _) (ObjReach.refl _ _))⟩

/-- Claim C9: the token-mode selector never removes index 0 or `n - 1`, so
any compressed array of at least two records keeps at least two; and no
further floor exists in this mode: on the six-record sample with a
one-token target the output is exactly the first and last record — two
records, below the item-count reducers' documented default minimum of 3. -/
theorem claim_C9 :
    (∀ (data : List Record) (cfg : ConfigT) (p : List ℕ),
        (TokenReducer.compress_single_array data cfg).preserved = some p →
        0 ∈ p ∧ data.length - 1 ∈ p ∧ (2 ≤ data.length → 2 ≤ p.length)) ∧
    ((TokenReducer.compress_single_array sampleSix cfgTokOne).preserved = some [0, 5] ∧
      (TokenReducer.compress_single_array sampleSix cfgTokOne).compressed_size = 2 ∧
      2 < 3) := by
  constructor
  · intro data cfg p h
    obtain ⟨hn, hguard, hp⟩ := TokenReducer.compress_preserved_cases data cfg p h
    subst hp
    obtain ⟨hpw, hz, hl, _⟩ := TokenReducer.preservedSet_spec data cfg hn
    refine ⟨hz, hl, fun h2 => ?_⟩
    exact two_mem_two_le_length _ 0 (data.length - 1) hz hl (by omega)
      (hpw.imp Nat.ne_of_lt)
  · refine ⟨?_, ?_, by omega⟩ <;> decide

set_option maxRecDepth 100000 in
/-- Claim C9, witnessed: a two-record array keeps both its records. -/
theorem claim_C9_witness :
    (TokenReducer.compress_single_array pairTwo cfgTokOne).preserved = some [0, 1] ∧
    (0 ∈ ([0, 1] : List ℕ) ∧ pairTwo.length - 1 ∈ ([0, 1] : List ℕ) ∧
      (2 ≤ pairTwo.length → 2 ≤ ([0, 1] : List ℕ).length)) :=
  ⟨by decide, claim_C9.1 pairTwo cfgTokOne [0, 1] (by decide)⟩

/-- Claim C10: the reducers build their outputs out of the original values:
every compressed array is a sublist of the input records (the records
themselves, in order), non-object non-array values pass through the nested
walkers untouched, and an array whose discovery entry says skip passes
through unchanged.  (In this embedding functions cannot mutate their
arguments; these equations are the observable content of the no-mutation
claim.) -/
theorem claim_C10 :
    (∀ (data : List Record) (cfg : ConfigT),
        (TokenReducer.compress_single_array data cfg).data.Sublist data) ∧
    (∀ (data : List Record) (cfg : ConfigR),
        (DataReducer.compress_single_array data cfg).data.Sublist data) ∧
    (∀ (data : List Record) (cfg : ConfigJ),
        (JsonReducer.intelligent_json_reducer data cfg).data.Sublist data) ∧
    (∀ (cfg : ConfigT) (infos : List TokenReducer.ArrayInfo) (C : ℕ)
        (v : JValue) (path : String),
        (∀ fs, v ≠ .obj fs) → (∀ items, v ≠ .arr items) →
        TokenReducer.compress_recursively cfg infos C v path = v) ∧
    (∀ (cfg : ConfigR) (infos : List DataReducer.ArrayInfo) (C : ℕ)
        (v : JValue) (path : String),
        (∀ fs, v ≠ .obj fs) → (∀ items, v ≠ .arr items) →
        DataReducer.compress_recursively cfg infos C v path = v) ∧
    (∀ (cfg : ConfigT) (infos : List TokenReducer.ArrayInfo) (C : ℕ)
        (items : List JValue) (path : String) (info : TokenReducer.ArrayInfo),
        infos.find? (fun i => i.path = path) = some info → info.skip = true →
        TokenReducer.compress_recursively cfg infos C (.arr items) path = .arr items) := by
  refine ⟨TokenReducer.compress_data_sublist, DataReducer.compress_single_sublist,
    JsonReducer.reducer_data_sublist, ?_, ?_, ?_⟩
  · intro cfg infos C v path h1 h2
    exact TokenReducer.compress_recursively_leaf cfg infos C v path h1 h2
  · intro cfg infos C v path h1 h2
    exact DataReducer.compress_walk_leaf cfg infos C v path h1 h2
  · intro cfg infos C items path info hf hs
    exact TokenReducer.compress_recursively_skip cfg infos C items path info hf hs

set_option maxRecDepth 100000 in
/-- Claim C10, witnessed on the six-record sample. -/
theorem claim_C10_witness :
    (TokenReducer.compress_single_array sampleSix cfgTokOne).data.Sublist sampleSix :=
  claim_C10.1 sampleSix cfgTokOne

end DataCompression
